import Mathlib

/-!
Verification of the portable on-disk persistence core of qdrant-s390x.

This file shallow-embeds the byte-level encoding, migration and validation
logic of the repository's persistence formats:

* `lib/segment/src/vector_storage/mmap_endian.rs` (canonical LE codec),
* `lib/common/common/src/stable_hash.rs` (stable hashing),
* `lib/segment/src/vector_storage/dense/mmap_dense_vectors.rs` (dense store),
* `lib/segment/src/index/field_index/mmap_point_to_values.rs` (point-to-values
  store with in-place BE migration),
* `lib/segment/src/index/field_index/full_text_index/inverted_index/mmap_inverted_index/mod.rs`
  (counts-file migration, phrase query dispatch),
* `lib/sparse/src/index/inverted_index/inverted_index_compressed_mmap.rs`
  (sparse index load-time validation),
* `lib/segment/src/index/hnsw_index/graph_links.rs` (legacy BE fallback load).

Files are modelled as `List Nat` byte sequences (each entry < 256), machine
integers as `Nat`/`Int` with explicit bounds, and host byte order as an
explicit `Bool` parameter wherever the source branches on `target_endian`.
-/

namespace QdrantS390x

/-! ## Byte-level primitives -/

/-- Little-endian value of a byte list: `bs[0] + 256 * bs[1] + ...`. -/
def leVal (bs : List Nat) : Nat :=
  bs.foldr (fun b acc => b + 256 * acc) 0

/-- Big-endian value of a byte list (first byte most significant). -/
def beVal (bs : List Nat) : Nat :=
  leVal bs.reverse

/-- `w` little-endian bytes of `v` (the analogue of Rust `to_le_bytes`). -/
def leBytes : Nat → Nat → List Nat
  | 0, _ => []
  | w + 1, v => (v % 256) :: leBytes w (v / 256)

/-- `w` big-endian bytes of `v` (the analogue of Rust `to_be_bytes`). -/
def beBytes (w v : Nat) : List Nat :=
  (leBytes w v).reverse

/-- A run of `n` zero bytes. -/
def zeros (n : Nat) : List Nat :=
  List.replicate n 0

theorem length_leBytes (w v : Nat) : (leBytes w v).length = w := by
  induction w generalizing v with
  | zero => rfl
  | succ w ih => simp [leBytes, ih]

theorem length_beBytes (w v : Nat) : (beBytes w v).length = w := by
  simp [beBytes, length_leBytes]

theorem mem_leBytes_lt {w v b : Nat} (h : b ∈ leBytes w v) : b < 256 := by
  induction w generalizing v with
  | zero => simp [leBytes] at h
  | succ w ih =>
    simp only [leBytes, List.mem_cons] at h
    rcases h with h | h
    · subst h; exact Nat.mod_lt _ (by norm_num)
    · exact ih h

theorem leVal_nil : leVal [] = 0 := rfl

theorem leVal_cons (b : Nat) (bs : List Nat) :
    leVal (b :: bs) = b + 256 * leVal bs := rfl

theorem leVal_leBytes {w v : Nat} (h : v < 256 ^ w) : leVal (leBytes w v) = v := by
  induction w generalizing v with
  | zero =>
    simp only [pow_zero, Nat.lt_one_iff] at h
    simp [leBytes, leVal, h]
  | succ w ih =>
    have hdiv : v / 256 < 256 ^ w := by
      rw [Nat.div_lt_iff_lt_mul (by norm_num)]
      calc v < 256 ^ (w + 1) := h
        _ = 256 ^ w * 256 := by ring
    rw [leBytes, leVal_cons, ih hdiv, Nat.mod_add_div]

theorem leBytes_leVal {bs : List Nat} (h : ∀ b ∈ bs, b < 256) :
    leBytes bs.length (leVal bs) = bs := by
  induction bs with
  | nil => rfl
  | cons b t ih =>
    have hb : b < 256 := h b (List.mem_cons_self b t)
    have ht : ∀ x ∈ t, x < 256 := fun x hx => h x (List.mem_cons_of_mem b hx)
    simp only [List.length_cons, leBytes, leVal_cons]
    have hmod : (b + 256 * leVal t) % 256 = b := by omega
    have hdivq : (b + 256 * leVal t) / 256 = leVal t := by omega
    rw [hmod, hdivq, ih ht]

theorem leVal_lt {bs : List Nat} (h : ∀ b ∈ bs, b < 256) :
    leVal bs < 256 ^ bs.length := by
  induction bs with
  | nil => simp [leVal]
  | cons b t ih =>
    have hb : b < 256 := h b (List.mem_cons_self b t)
    have ht : ∀ x ∈ t, x < 256 := fun x hx => h x (List.mem_cons_of_mem b hx)
    have := ih ht
    simp only [leVal_cons, List.length_cons, pow_succ]
    calc b + 256 * leVal t < 256 + 256 * leVal t := by omega
      _ = 256 * (leVal t + 1) := by ring
      _ ≤ 256 * 256 ^ t.length := by
        have : leVal t + 1 ≤ 256 ^ t.length := this
        exact Nat.mul_le_mul_left 256 this
      _ = 256 ^ t.length * 256 := by ring

theorem beVal_beBytes {w v : Nat} (h : v < 256 ^ w) : beVal (beBytes w v) = v := by
  simp [beVal, beBytes, leVal_leBytes h]

theorem reverse_beBytes (w v : Nat) : (beBytes w v).reverse = leBytes w v := by
  simp [beBytes]

theorem leVal_append (a b : List Nat) :
    leVal (a ++ b) = leVal a + 256 ^ a.length * leVal b := by
  induction a with
  | nil => simp [leVal]
  | cons x t ih =>
    simp only [List.cons_append, leVal_cons, ih, List.length_cons, pow_succ]
    ring

/-! ## Slices of byte files -/

/-- The `len` bytes starting at offset `off` (the analogue of `&bytes[off..off+len]`,
shorter when the file ends first). -/
def slice (l : List Nat) (off len : Nat) : List Nat :=
  (l.drop off).take len

/-- Overwrite the bytes starting at `off` with `seg` (in-place mmap write). -/
def writeAt (l : List Nat) (off : Nat) (seg : List Nat) : List Nat :=
  l.take off ++ seg ++ l.drop (off + seg.length)

/-- Reverse the `len` bytes starting at `off` (in-place byte swap of one field). -/
def reverseAt (l : List Nat) (off len : Nat) : List Nat :=
  writeAt l off (slice l off len).reverse

theorem slice_append_exact (pre seg post : List Nat) :
    slice (pre ++ seg ++ post) pre.length seg.length = seg := by
  rw [slice, List.append_assoc, List.drop_left, List.take_left]

theorem slice_append_exact' {pre seg post l : List Nat} {off len : Nat}
    (hl : l = pre ++ seg ++ post) (hoff : pre.length = off) (hlen : seg.length = len) :
    slice l off len = seg := by
  subst hl hoff hlen; exact slice_append_exact pre seg post

theorem writeAt_append_exact (pre seg post seg' : List Nat)
    (hlen : seg'.length = seg.length) :
    writeAt (pre ++ seg ++ post) pre.length seg' = pre ++ seg' ++ post := by
  unfold writeAt
  rw [hlen]
  have h1 : (pre ++ seg ++ post).take pre.length = pre := by
    rw [List.append_assoc, List.take_left]
  have h2 : (pre ++ seg ++ post).drop (pre.length + seg.length) = post := by
    rw [show pre.length + seg.length = (pre ++ seg).length by simp, List.drop_left]
  rw [h1, h2, List.append_assoc]

theorem reverseAt_append_exact {pre seg post l : List Nat} {off len : Nat}
    (hl : l = pre ++ seg ++ post) (hoff : pre.length = off) (hlen : seg.length = len) :
    reverseAt l off len = pre ++ seg.reverse ++ post := by
  subst hl hoff hlen
  rw [reverseAt, slice_append_exact]
  exact writeAt_append_exact pre seg post seg.reverse (by simp)

/-! ## C3: canonical endian codec (`mmap_endian.rs`) -/

/-- Swap the byte order of a `w`-byte value (Rust `swap_bytes`). -/
def swap_bytes (w v : Nat) : Nat :=
  leVal (leBytes w v).reverse

/-- Rust `<uN>::to_le(v)`: identity on little-endian hosts, byte swap on
big-endian hosts. `bigHost` is the `target_endian = "big"` flag. -/
def nat_to_le (bigHost : Bool) (w v : Nat) : Nat :=
  if bigHost then swap_bytes w v else v

/-- Rust `<uN>::from_le(v)`. -/
def nat_from_le (bigHost : Bool) (w v : Nat) : Nat :=
  if bigHost then swap_bytes w v else v

/-- `impl MmapEndianConvertible for u8`: identity in both directions. -/
def to_le_storage_u8 (v : Nat) : Nat := v

/-- `impl MmapEndianConvertible for u8`: identity in both directions. -/
def from_le_storage_u8 (v : Nat) : Nat := v

/-- `impl MmapEndianConvertible for u16` via `u16::to_le`. -/
def to_le_storage_u16 (bigHost : Bool) (v : Nat) : Nat := nat_to_le bigHost 2 v

/-- `impl MmapEndianConvertible for u16` via `u16::from_le`. -/
def from_le_storage_u16 (bigHost : Bool) (v : Nat) : Nat := nat_from_le bigHost 2 v

/-- `impl MmapEndianConvertible for u32` via `u32::to_le`. -/
def to_le_storage_u32 (bigHost : Bool) (v : Nat) : Nat := nat_to_le bigHost 4 v

/-- `impl MmapEndianConvertible for u32` via `u32::from_le`. -/
def from_le_storage_u32 (bigHost : Bool) (v : Nat) : Nat := nat_from_le bigHost 4 v

/-- `impl MmapEndianConvertible for u64` via `u64::to_le`. -/
def to_le_storage_u64 (bigHost : Bool) (v : Nat) : Nat := nat_to_le bigHost 8 v

/-- `impl MmapEndianConvertible for u64` via `u64::from_le`. -/
def from_le_storage_u64 (bigHost : Bool) (v : Nat) : Nat := nat_from_le bigHost 8 v

/-- `impl MmapEndianConvertible for f32`: `f32::from_bits(self.to_bits().to_le())`,
modelled on the IEEE-754 bit pattern. -/
def to_le_storage_f32_bits (bigHost : Bool) (bits : Nat) : Nat := nat_to_le bigHost 4 bits

/-- `impl MmapEndianConvertible for f32`: `f32::from_bits(u32::from_le(stored.to_bits()))`. -/
def from_le_storage_f32_bits (bigHost : Bool) (bits : Nat) : Nat := nat_from_le bigHost 4 bits

/-- `impl MmapEndianConvertible for f16` on the bit pattern. -/
def to_le_storage_f16_bits (bigHost : Bool) (bits : Nat) : Nat := nat_to_le bigHost 2 bits

/-- `impl MmapEndianConvertible for f16` on the bit pattern. -/
def from_le_storage_f16_bits (bigHost : Bool) (bits : Nat) : Nat := nat_from_le bigHost 2 bits

theorem swap_bytes_lt {w v : Nat} (h : v < 256 ^ w) : swap_bytes w v < 256 ^ w := by
  have hmem : ∀ b ∈ (leBytes w v).reverse, b < 256 := by
    intro b hb
    exact mem_leBytes_lt (List.mem_reverse.mp hb)
  have := leVal_lt hmem
  simpa [swap_bytes, length_leBytes] using this

theorem swap_bytes_involutive {w v : Nat} (h : v < 256 ^ w) :
    swap_bytes w (swap_bytes w v) = v := by
  unfold swap_bytes
  set bs := leBytes w v with hbs
  have hmem : ∀ b ∈ bs.reverse, b < 256 := by
    intro b hb
    exact mem_leBytes_lt (List.mem_reverse.mp hb)
  have hlen : bs.reverse.length = w := by simp [hbs, length_leBytes]
  have h2 : leBytes w (leVal bs.reverse) = bs.reverse := by
    rw [← hlen]; exact leBytes_leVal hmem
  rw [h2, List.reverse_reverse, hbs, leVal_leBytes h]

theorem nat_from_le_to_le {bigHost : Bool} {w v : Nat} (h : v < 256 ^ w) :
    nat_from_le bigHost w (nat_to_le bigHost w v) = v := by
  unfold nat_from_le nat_to_le
  cases bigHost with
  | false => rfl
  | true => simpa using swap_bytes_involutive h

/-- C3. For every supported scalar type `T ∈ {u8, u16, u32, u64, f32, f16}` and
every value `v` of type `T`, `from_le_storage (to_le_storage v) = v`; for the
float types the statement is about the IEEE-754 bit pattern. The host byte
order `bigHost` is arbitrary, covering both little- and big-endian targets. -/
theorem mmap_endian_roundtrip (bigHost : Bool)
    (v8 v16 v32 v64 b32 b16 : Nat)
    (h8 : v8 < 256) (h16 : v16 < 2 ^ 16) (h32 : v32 < 2 ^ 32) (h64 : v64 < 2 ^ 64)
    (hb32 : b32 < 2 ^ 32) (hb16 : b16 < 2 ^ 16) :
    from_le_storage_u8 (to_le_storage_u8 v8) = v8 ∧
    from_le_storage_u16 bigHost (to_le_storage_u16 bigHost v16) = v16 ∧
    from_le_storage_u32 bigHost (to_le_storage_u32 bigHost v32) = v32 ∧
    from_le_storage_u64 bigHost (to_le_storage_u64 bigHost v64) = v64 ∧
    from_le_storage_f32_bits bigHost (to_le_storage_f32_bits bigHost b32) = b32 ∧
    from_le_storage_f16_bits bigHost (to_le_storage_f16_bits bigHost b16) = b16 := by
  refine ⟨rfl, ?_, ?_, ?_, ?_, ?_⟩
  · exact nat_from_le_to_le (by norm_num at h16 ⊢; omega)
  · exact nat_from_le_to_le (by norm_num at h32 ⊢; omega)
  · exact nat_from_le_to_le (by norm_num at h64 ⊢; omega)
  · exact nat_from_le_to_le (by norm_num at hb32 ⊢; omega)
  · exact nat_from_le_to_le (by norm_num at hb16 ⊢; omega)

/-- Witness for `mmap_endian_roundtrip` at concrete values on a big-endian host. -/
theorem mmap_endian_roundtrip_witness :
    from_le_storage_u8 (to_le_storage_u8 7) = 7 ∧
    from_le_storage_u16 true (to_le_storage_u16 true 43981) = 43981 ∧
    from_le_storage_u32 true (to_le_storage_u32 true 2864434397) = 2864434397 ∧
    from_le_storage_u64 true (to_le_storage_u64 true 81985529216486895) = 81985529216486895 ∧
    from_le_storage_f32_bits true (to_le_storage_f32_bits true 1078530011) = 1078530011 ∧
    from_le_storage_f16_bits true (to_le_storage_f16_bits true 15360) = 15360 :=
  mmap_endian_roundtrip true 7 43981 2864434397 81985529216486895 1078530011 15360
    (by norm_num) (by norm_num) (by norm_num) (by norm_num) (by norm_num) (by norm_num)

/-! ## C9: stable hash (`stable_hash.rs`) -/

/-- Two's-complement 32-bit pattern of an `i32` value. -/
def i32_bits (v : Int) : Nat :=
  (v % (2 ^ 32 : Int)).toNat

/-- `impl StableHash for u32`: `write(&self.to_le_bytes())`. The sink is the
byte stream accumulated so far. -/
def stable_hash_u32 (v : Nat) (sink : List Nat) : List Nat :=
  sink ++ leBytes 4 v

/-- `impl StableHash for i32`: `write(&self.to_le_bytes())` on the two's
complement bit pattern. -/
def stable_hash_i32 (v : Int) (sink : List Nat) : List Nat :=
  sink ++ leBytes 4 (i32_bits v)

/-- `impl StableHash for u64`: `write(&self.to_le_bytes())`. -/
def stable_hash_u64 (v : Nat) (sink : List Nat) : List Nat :=
  sink ++ leBytes 8 v

/-- `impl StableHash for usize`: `(*self as u64).stable_hash(write)`. -/
def stable_hash_usize (v : Nat) (sink : List Nat) : List Nat :=
  stable_hash_u64 v sink

/-- `impl StableHash for (A, B)`: hash the first component, then the second. -/
def stable_hash_pair (hashA : List Nat → List Nat) (hashB : List Nat → List Nat)
    (sink : List Nat) : List Nat :=
  hashB (hashA sink)

/-- C9. For every `i32`, `u32` and `u64` value `v`, `stable_hash` appends exactly
`sizeof(v)` bytes to the sink, and those bytes are the little-endian
representation of `v` (of its two's-complement bit pattern for `i32`): decoding
them as a little-endian integer recovers the value. `usize` appends the 8
little-endian bytes of `v as u64`. -/
theorem stable_hash_writes_le_bytes (sink : List Nat)
    (vu32 : Nat) (vi32 : Int) (vu64 vusize : Nat)
    (hu32 : vu32 < 2 ^ 32) (hi32lo : -(2 ^ 31) ≤ vi32) (hi32hi : vi32 < 2 ^ 31)
    (hu64 : vu64 < 2 ^ 64) (husize : vusize < 2 ^ 64) :
    (stable_hash_u32 vu32 sink = sink ++ leBytes 4 vu32 ∧
      (leBytes 4 vu32).length = 4 ∧ leVal (leBytes 4 vu32) = vu32) ∧
    (stable_hash_i32 vi32 sink = sink ++ leBytes 4 (i32_bits vi32) ∧
      (leBytes 4 (i32_bits vi32)).length = 4 ∧
      leVal (leBytes 4 (i32_bits vi32)) = i32_bits vi32) ∧
    (stable_hash_u64 vu64 sink = sink ++ leBytes 8 vu64 ∧
      (leBytes 8 vu64).length = 8 ∧ leVal (leBytes 8 vu64) = vu64) ∧
    (stable_hash_usize vusize sink = stable_hash_u64 vusize sink ∧
      stable_hash_usize vusize sink = sink ++ leBytes 8 vusize ∧
      (leBytes 8 vusize).length = 8) := by
  have hbits : i32_bits vi32 < 2 ^ 32 := by
    unfold i32_bits
    have h1 : (0 : Int) ≤ vi32 % (2 ^ 32 : Int) := Int.emod_nonneg _ (by norm_num)
    have h2 : vi32 % (2 ^ 32 : Int) < (2 ^ 32 : Int) := Int.emod_lt_of_pos _ (by norm_num)
    omega
  refine ⟨⟨rfl, length_leBytes _ _, ?_⟩, ⟨rfl, length_leBytes _ _, ?_⟩,
    ⟨rfl, length_leBytes _ _, ?_⟩, rfl, rfl, length_leBytes _ _⟩
  · exact leVal_leBytes (by norm_num at hu32 ⊢; omega)
  · exact leVal_leBytes (by norm_num at hbits ⊢; omega)
  · exact leVal_leBytes (by norm_num at hu64 ⊢; omega)

/-- Witness for `stable_hash_writes_le_bytes` at concrete values. -/
theorem stable_hash_writes_le_bytes_witness :
    (stable_hash_u32 16909060 [] = [] ++ leBytes 4 16909060 ∧
      (leBytes 4 16909060).length = 4 ∧ leVal (leBytes 4 16909060) = 16909060) ∧
    (stable_hash_i32 (-2) [] = [] ++ leBytes 4 (i32_bits (-2)) ∧
      (leBytes 4 (i32_bits (-2))).length = 4 ∧
      leVal (leBytes 4 (i32_bits (-2))) = i32_bits (-2)) ∧
    (stable_hash_u64 72623859790382856 [] = [] ++ leBytes 8 72623859790382856 ∧
      (leBytes 8 72623859790382856).length = 8 ∧
      leVal (leBytes 8 72623859790382856) = 72623859790382856) ∧
    (stable_hash_usize 5 [] = stable_hash_u64 5 [] ∧
      stable_hash_usize 5 [] = [] ++ leBytes 8 5 ∧
      (leBytes 8 5).length = 8) :=
  stable_hash_writes_le_bytes [] 16909060 (-2) 72623859790382856 5
    (by norm_num) (by norm_num) (by norm_num) (by norm_num) (by norm_num)

/-! ## Dense vector store (`mmap_dense_vectors.rs`) — C6, C7, C10 -/

/-- The 4-byte ASCII magic `"data"` of the vectors file. -/
def VECTORS_HEADER : List Nat := [100, 97, 116, 97]

/-- The 4-byte ASCII magic `"drop"` of the deleted file. -/
def DELETED_HEADER : List Nat := [100, 114, 111, 112]

/-- `HEADER_SIZE` of `mmap_dense_vectors.rs`. -/
def DENSE_HEADER_SIZE : Nat := 4

/-- Rust `File::set_len`: truncate or zero-extend to exactly `s` bytes. -/
def setLen (f : List Nat) (s : Nat) : List Nat :=
  f.take s ++ zeros (s - f.length)

/-- `ensure_mmap_file_size`: if the file exists, only `set_len` it when a size
is given; otherwise create it with the header and extend to `size` when
`size > header.len()`. `none` models an absent file. -/
def ensure_mmap_file_size (file : Option (List Nat)) (header : List Nat)
    (size : Option Nat) : List Nat :=
  match file with
  | some f =>
    match size with
    | some s => setLen f s
    | none => f
  | none =>
    match size with
    | some s => if header.length < s then setLen header s else header
    | none => header

/-- `deleted_mmap_data_start()`: `HEADER_SIZE.div_ceil(8) * 8 = 8`. -/
def deleted_mmap_data_start : Nat :=
  ((DENSE_HEADER_SIZE + 7) / 8) * 8

/-- `deleted_mmap_size(num)`: header block plus the bit data rounded up to
8-byte blocks. -/
def deleted_mmap_size (num : Nat) : Nat :=
  deleted_mmap_data_start + (((num + 7) / 8 + 7) / 8) * 8

/-- Bits of one byte, least-significant first (the `bitvec` `Lsb0` order used
by `MmapBitSlice`). -/
def byteBits (b : Nat) : List Bool :=
  (List.range 8).map (fun i => b / 2 ^ i % 2 = 1)

/-- The bit slice stored in the deleted file past the 8-byte header block. -/
def bitsOfBytes (bs : List Nat) : List Bool :=
  bs.flatMap byteBits

/-- `count_ones` of a bit slice. -/
def countOnes (bits : List Bool) : Nat :=
  (bits.filter id).length

/-- Error kinds raised by `MmapDenseVectors::open`, one per distinct
`service_error` message in the source. -/
inductive DenseOpenErr
  | invalidVectorsFileSize
  | invalidVectorsHeader
  | vectorByteSizeZero
  | invalidVectorsPayloadSize
  | invalidDeletedFileSize
  | invalidDeletedHeader
deriving DecidableEq, Repr

/-- In-memory state of an opened `MmapDenseVectors` (the fields the claims
are about: dimensions, vector count, deletion bit slice and deletion count). -/
structure MmapDenseVectorsModel where
  dim : Nat
  num_vectors : Nat
  deleted : List Bool
  deleted_count : Nat
deriving DecidableEq, Repr

/-- `MmapDenseVectors::decode_vectors` (the big-endian decode cache): the
payload split into `sizeofT`-byte little-endian values. -/
def decode_dense_vectors (payload : List Nat) (sizeofT count : Nat) : List Nat :=
  (List.range count).map (fun i => leVal (slice payload (i * sizeofT) sizeofT))

/-- `MmapDenseVectors::open`. Returns the resulting on-disk vectors file, the
on-disk deleted file, and the opened state. `vectorsFile`/`deletedFile` are the
prior file contents (`none` = absent); `bigHost` selects the decode cache. -/
def openDense (bigHost : Bool) (vectorsFile deletedFile : Option (List Nat))
    (dim sizeofT : Nat) :
    Except DenseOpenErr (List Nat × List Nat × MmapDenseVectorsModel) :=
  let vfile := ensure_mmap_file_size vectorsFile VECTORS_HEADER none
  if vfile.length < DENSE_HEADER_SIZE then .error .invalidVectorsFileSize
  else if slice vfile 0 DENSE_HEADER_SIZE ≠ VECTORS_HEADER then .error .invalidVectorsHeader
  else
    let vector_bytes := dim * sizeofT
    if vector_bytes = 0 then .error .vectorByteSizeZero
    else
      let payload_len := vfile.length - DENSE_HEADER_SIZE
      if payload_len % vector_bytes ≠ 0 then .error .invalidVectorsPayloadSize
      else
        let num_vectors := payload_len / vector_bytes
        let _decoded := if bigHost then
          some (decode_dense_vectors (vfile.drop DENSE_HEADER_SIZE) sizeofT (dim * num_vectors))
        else none
        let dsize := deleted_mmap_size num_vectors
        let dfile := ensure_mmap_file_size deletedFile DELETED_HEADER (some dsize)
        if dfile.length < deleted_mmap_data_start then .error .invalidDeletedFileSize
        else if slice dfile 0 DENSE_HEADER_SIZE ≠ DELETED_HEADER then .error .invalidDeletedHeader
        else
          let deleted := bitsOfBytes (dfile.drop deleted_mmap_data_start)
          .ok (vfile, dfile,
            { dim := dim, num_vectors := num_vectors, deleted := deleted,
              deleted_count := countOnes deleted })

/-- `MmapDenseVectors::delete`: `!self.deleted.replace(key, true)`, bump the
count on a transition, return whether a transition happened. `none` models the
panic of `BitSlice::replace` on an out-of-bounds index. -/
def deleteDense (st : MmapDenseVectorsModel) (key : Nat) :
    Option (MmapDenseVectorsModel × Bool) :=
  if h : key < st.deleted.length then
    let old := st.deleted.get ⟨key, h⟩
    some ({ st with
              deleted := st.deleted.set key true,
              deleted_count := if old then st.deleted_count else st.deleted_count + 1 },
          !old)
  else none

theorem countOnes_append (a b : List Bool) :
    countOnes (a ++ b) = countOnes a + countOnes b := by
  simp [countOnes, List.filter_append]

theorem countOnes_eq_zero {l : List Bool} (h : ∀ b ∈ l, b = false) :
    countOnes l = 0 := by
  simp only [countOnes, List.length_eq_zero]
  rw [List.filter_eq_nil_iff]
  intro a ha
  simp [h a ha]

theorem take_set_of_lt (l : List Bool) (k n : Nat) (a : Bool) (h : k < n) :
    (l.set k a).take n = (l.take n).set k a := by
  induction l generalizing k n with
  | nil => simp
  | cons x t ih =>
    cases k with
    | zero =>
      cases n with
      | zero => omega
      | succ n => simp [List.set, List.take]
    | succ k =>
      cases n with
      | zero => omega
      | succ n => simp [List.set, List.take, ih k n (by omega)]

theorem countOnes_cons (x : Bool) (l : List Bool) :
    countOnes (x :: l) = (cond x 1 0) + countOnes l := by
  cases x <;> simp [countOnes, List.filter] <;> omega

theorem countOnes_set_true (l : List Bool) (k : Nat) (h : k < l.length) :
    countOnes (l.set k true) = countOnes l + (if l.get ⟨k, h⟩ then 0 else 1) := by
  induction l generalizing k with
  | nil => simp at h
  | cons x t ih =>
    cases k with
    | zero =>
      cases x <;> simp [countOnes_cons, List.set, List.get] <;> omega
    | succ k =>
      have hk : k < t.length := by simpa using h
      have step := ih k hk
      simp only [List.set_cons_succ, countOnes_cons, step, List.get_cons_succ]
      omega

theorem openDense_count_full {bigHost : Bool} {vf df : Option (List Nat)}
    {dim szT : Nat} {out : List Nat × List Nat × MmapDenseVectorsModel}
    (h : openDense bigHost vf df dim szT = .ok out) :
    out.2.2.deleted_count = countOnes out.2.2.deleted := by
  simp only [openDense] at h
  repeat' split at h
  all_goals try exact Except.noConfusion h
  injection h with h2
  subst h2
  rfl

/-- The spec invariant of the dense store: the deletion count equals the
popcount of the deletion bits restricted to the live vectors. -/
def denseDeletedInvariant (st : MmapDenseVectorsModel) : Prop :=
  st.deleted_count = countOnes (st.deleted.take st.num_vectors)

/-- C6. Opening a dense-vectors file whose payload length (file length minus
the 4-byte header) is not divisible by `dim * sizeof(T)` fails with the
structural payload-size error, for every `dim > 0`, element size, host byte
order and deleted-file state. -/
theorem open_dense_rejects_indivisible_payload
    (bigHost : Bool) (vfile : List Nat) (deletedFile : Option (List Nat))
    (dim sizeofT : Nat) (hdim : 0 < dim) (hsz : 0 < sizeofT)
    (hlen : DENSE_HEADER_SIZE ≤ vfile.length)
    (hmagic : slice vfile 0 DENSE_HEADER_SIZE = VECTORS_HEADER)
    (hdiv : (vfile.length - DENSE_HEADER_SIZE) % (dim * sizeofT) ≠ 0) :
    openDense bigHost (some vfile) deletedFile dim sizeofT =
      .error .invalidVectorsPayloadSize := by
  unfold openDense ensure_mmap_file_size
  have hvb : dim * sizeofT ≠ 0 := by positivity
  simp only [hmagic]
  rw [if_neg (by omega), if_neg (by simp), if_neg hvb, if_pos hdiv]

/-- Witness for `open_dense_rejects_indivisible_payload`: a `"data"` file with a
half-vector payload (4 bytes, `dim = 2`, `sizeof(f32) = 4`) is rejected. -/
theorem open_dense_rejects_indivisible_payload_witness :
    openDense false (some (VECTORS_HEADER ++ [0, 0, 128, 63])) none 2 4 =
      .error .invalidVectorsPayloadSize :=
  open_dense_rejects_indivisible_payload false (VECTORS_HEADER ++ [0, 0, 128, 63]) none 2 4
    (by norm_num) (by norm_num) (by decide) (by decide) (by decide)

/-- C10. `MmapDenseVectors::open` never fails merely because the vectors file
was absent or held no vectors: an absent vectors file is created containing
only the 4-byte magic `"data"` and open succeeds, and a header-only vectors
file opens with `num_vectors = 0` and `deleted_count = 0`, for every
`dim > 0`, element size and host byte order (deleted file absent). -/
theorem open_dense_accepts_absent_and_header_only
    (bigHost : Bool) (dim sizeofT : Nat) (hdim : 0 < dim) (hsz : 0 < sizeofT) :
    ensure_mmap_file_size none VECTORS_HEADER none = VECTORS_HEADER ∧
    (∃ dfile st, openDense bigHost none none dim sizeofT =
        .ok (VECTORS_HEADER, dfile, st) ∧
      st.num_vectors = 0 ∧ st.deleted_count = 0) ∧
    (∃ dfile st, openDense bigHost (some VECTORS_HEADER) none dim sizeofT =
        .ok (VECTORS_HEADER, dfile, st) ∧
      st.num_vectors = 0 ∧ st.deleted_count = 0) := by
  have hvb : dim * sizeofT ≠ 0 := by positivity
  refine ⟨rfl,
    ⟨DELETED_HEADER ++ zeros 4,
      { dim := dim, num_vectors := 0, deleted := [], deleted_count := 0 }, ?_, rfl, rfl⟩,
    ⟨DELETED_HEADER ++ zeros 4,
      { dim := dim, num_vectors := 0, deleted := [], deleted_count := 0 }, ?_, rfl, rfl⟩⟩ <;>
  · simp only [openDense, ensure_mmap_file_size]
    norm_num [DENSE_HEADER_SIZE, VECTORS_HEADER, DELETED_HEADER, deleted_mmap_size,
      deleted_mmap_data_start, setLen, zeros, slice, bitsOfBytes, countOnes, hvb]

/-- Witness for `open_dense_accepts_absent_and_header_only` at `dim = 2`,
`sizeof(f32) = 4`. -/
theorem open_dense_accepts_absent_and_header_only_witness :
    ensure_mmap_file_size none VECTORS_HEADER none = VECTORS_HEADER ∧
    (∃ dfile st, openDense false none none 2 4 =
        .ok (VECTORS_HEADER, dfile, st) ∧
      st.num_vectors = 0 ∧ st.deleted_count = 0) ∧
    (∃ dfile st, openDense false (some VECTORS_HEADER) none 2 4 =
        .ok (VECTORS_HEADER, dfile, st) ∧
      st.num_vectors = 0 ∧ st.deleted_count = 0) :=
  open_dense_accepts_absent_and_header_only false 2 4 (by norm_num) (by norm_num)

/-- C7. For every opened dense store whose deletion bits beyond `num_vectors`
are all zero (the spec's companion invariant for the reserved bits), the
invariant `deleted_count = popcount(deleted[..num_vectors])` holds after open;
and for any state satisfying the invariant, `delete(key)` with a live key
preserves it, sets the deletion bit, bumps the count exactly on a transition,
and returns `true` iff the bit transitioned from not-deleted to deleted. -/
theorem dense_deleted_count_invariant :
    (∀ (bigHost : Bool) (vf df : Option (List Nat)) (dim szT : Nat)
        (out : List Nat × List Nat × MmapDenseVectorsModel),
      openDense bigHost vf df dim szT = .ok out →
      (∀ b ∈ out.2.2.deleted.drop out.2.2.num_vectors, b = false) →
      denseDeletedInvariant out.2.2) ∧
    (∀ (st : MmapDenseVectorsModel) (key : Nat),
      denseDeletedInvariant st → st.num_vectors ≤ st.deleted.length →
      key < st.num_vectors →
      ∃ st' r, deleteDense st key = some (st', r) ∧
        denseDeletedInvariant st' ∧
        st'.deleted.getD key false = true ∧
        (r = true ↔ st.deleted.getD key false = false) ∧
        st'.deleted_count = st.deleted_count +
          (if st.deleted.getD key false then 0 else 1)) := by
  constructor
  · intro bigHost vf df dim szT out h hz
    have hfull := openDense_count_full h
    unfold denseDeletedInvariant
    rw [hfull]
    conv_lhs => rw [← List.take_append_drop out.2.2.num_vectors out.2.2.deleted]
    rw [countOnes_append, countOnes_eq_zero hz]
    simp
  · intro st key hinv hle hkey
    have hk : key < st.deleted.length := lt_of_lt_of_le hkey hle
    have hgetD : st.deleted.getD key false = st.deleted.get ⟨key, hk⟩ := by
      rw [List.getD_eq_getElem _ _ hk, List.get_eq_getElem]
    have hdel : deleteDense st key =
        some (⟨st.dim, st.num_vectors, st.deleted.set key true,
          if st.deleted.get ⟨key, hk⟩ then st.deleted_count else st.deleted_count + 1⟩,
          !(st.deleted.get ⟨key, hk⟩)) := by
      unfold deleteDense
      rw [dif_pos hk]
    refine ⟨_, _, hdel, ?_, ?_, ?_, ?_⟩
    · unfold denseDeletedInvariant at hinv ⊢
      simp only
      have htake : (st.deleted.set key true).take st.num_vectors =
          (st.deleted.take st.num_vectors).set key true :=
        take_set_of_lt _ _ _ _ hkey
      have hklen : key < (st.deleted.take st.num_vectors).length := by
        rw [List.length_take]; omega
      have hgt : (st.deleted.take st.num_vectors).get ⟨key, hklen⟩ =
          st.deleted.get ⟨key, hk⟩ := by
        simp [List.get_eq_getElem, List.getElem_take]
      rw [htake, countOnes_set_true _ _ hklen, hgt, ← hinv]
      cases hc : st.deleted.get ⟨key, hk⟩ <;> simp
    · simp only
      rw [List.getD_eq_getElem _ _ (by simpa using hk)]
      exact List.getElem_set_self (by simpa using hk)
    · rw [hgetD]
      cases st.deleted.get ⟨key, hk⟩ <;> simp
    · rw [hgetD]
      cases st.deleted.get ⟨key, hk⟩ <;> simp

/-- Witness for `dense_deleted_count_invariant`: a store opened over a
one-vector file (`dim = 2`, `f32`) satisfies the invariant, and deleting
key 0 preserves it and reports the transition. -/
theorem dense_deleted_count_invariant_witness :
    denseDeletedInvariant
      { dim := 2, num_vectors := 1, deleted := List.replicate 64 false,
        deleted_count := 0 } ∧
    ∃ st' r,
      deleteDense
        { dim := 2, num_vectors := 1, deleted := List.replicate 64 false,
          deleted_count := 0 } 0 = some (st', r) ∧
      denseDeletedInvariant st' ∧
      st'.deleted.getD 0 false = true ∧
      (r = true ↔ (List.replicate 64 false).getD 0 false = false) ∧
      st'.deleted_count = 0 +
        (if (List.replicate 64 false).getD 0 false then 0 else 1) :=
  ⟨dense_deleted_count_invariant.1 false (some (VECTORS_HEADER ++ zeros 8)) none 2 4
      (VECTORS_HEADER ++ zeros 8, DELETED_HEADER ++ zeros 12,
        { dim := 2, num_vectors := 1, deleted := List.replicate 64 false,
          deleted_count := 0 })
      (by rfl) (by decide),
    dense_deleted_count_invariant.2
      { dim := 2, num_vectors := 1, deleted := List.replicate 64 false, deleted_count := 0 }
      0 (by unfold denseDeletedInvariant; decide) (by decide) (by decide)⟩

/-! ## Text inverted index phrase dispatch (`mmap_inverted_index/mod.rs`) — C8 -/

/-- `MmapPostingsEnum`: postings without positions (`Ids`) hold plain point-id
posting lists; postings with positions (`WithPositions`) hold per-point
position lists. -/
inductive MmapPostingsEnumModel where
  | ids (postings : Nat → Option (List Nat))
  | withPositions (postings : Nat → Option (List (Nat × List Nat)))

/-- The parsed full-text queries dispatched by `filter`/`check_match`. -/
inductive ParsedQueryModel where
  | allTokens (tokens : List Nat)
  | anyTokens (tokens : List Nat)
  | phrase (phrase : List Nat)

/-- State of an opened `MmapInvertedIndex` (the fields the phrase dispatch
reads). -/
structure MmapInvertedIndexModel where
  postings : MmapPostingsEnumModel
  deletedPoints : Nat → Option Bool
  pointToTokensCount : Nat → Option Nat
  activePointsCount : Nat

/-- Modelled from the spec: the posting-iterator module
(`postings_iterator.rs`: `intersect_compressed_postings_iterator`,
`merge_compressed_postings_iterator`,
`intersect_compressed_postings_phrase_iterator`,
`check_compressed_postings_phrase`) is not under src/ — only its callers are.
The dispatch theorems below therefore quantify over an arbitrary
implementation of those operations, so they hold whatever the missing module
computes. -/
structure TextQueryOps where
  allFilter : MmapInvertedIndexModel → List Nat → List Nat
  anyFilter : MmapInvertedIndexModel → List Nat → List Nat
  subsetCheck : MmapInvertedIndexModel → List Nat → Nat → Bool
  anyCheck : MmapInvertedIndexModel → List Nat → Nat → Bool
  phraseFilterPos : (Nat → Option (List (Nat × List Nat))) → List Nat → (Nat → Bool) → List Nat
  phraseCheckPos : (Nat → Option (List (Nat × List Nat))) → List Nat → Nat → Bool

/-- `MmapInvertedIndex::is_active`: not deleted, missing points count as
deleted. -/
def is_active (idx : MmapInvertedIndexModel) (pid : Nat) : Bool :=
  ! ((idx.deletedPoints pid).getD true)

/-- `MmapInvertedIndex::filter_has_phrase`: positional postings run the phrase
intersection; `Ids` postings cannot do phrase matching and yield the empty
sequence. -/
def filter_has_phrase (ops : TextQueryOps) (idx : MmapInvertedIndexModel)
    (phrase : List Nat) : List Nat :=
  match idx.postings with
  | .withPositions p => ops.phraseFilterPos p phrase (fun pid => is_active idx pid)
  | .ids _ => []

/-- `MmapInvertedIndex::check_has_phrase`: inactive points never match;
`Ids` postings cannot do phrase matching and always answer `false`. -/
def check_has_phrase (ops : TextQueryOps) (idx : MmapInvertedIndexModel)
    (phrase : List Nat) (pid : Nat) : Bool :=
  if !(is_active idx pid) then false
  else
    match idx.postings with
    | .withPositions p => ops.phraseCheckPos p phrase pid
    | .ids _ => false

/-- `InvertedIndex::filter` for `MmapInvertedIndex`: dispatch on the parsed
query. -/
def filter_query (ops : TextQueryOps) (idx : MmapInvertedIndexModel)
    (q : ParsedQueryModel) : List Nat :=
  match q with
  | .allTokens t => ops.allFilter idx t
  | .phrase p => filter_has_phrase ops idx p
  | .anyTokens t => ops.anyFilter idx t

/-- `InvertedIndex::check_match` for `MmapInvertedIndex`. -/
def check_match (ops : TextQueryOps) (idx : MmapInvertedIndexModel)
    (q : ParsedQueryModel) (pid : Nat) : Bool :=
  match q with
  | .allTokens t => ops.subsetCheck idx t pid
  | .phrase p => check_has_phrase ops idx p pid
  | .anyTokens t => ops.anyCheck idx t pid

/-- An index opened with `has_positions == false` (postings are the `Ids`
variant). -/
def hasIdsPostings (idx : MmapInvertedIndexModel) : Prop :=
  match idx.postings with
  | .ids _ => True
  | .withPositions _ => False

/-- C8. For every text inverted index opened without positional postings,
every phrase, and every point id, `filter(Phrase)` returns the empty point-id
sequence and `check_match(Phrase, pid)` returns `false` — for any
implementation of the positional query operations. -/
theorem phrase_query_empty_without_positions
    (ops : TextQueryOps) (idx : MmapInvertedIndexModel)
    (phrase : List Nat) (pid : Nat) (hids : hasIdsPostings idx) :
    filter_query ops idx (.phrase phrase) = [] ∧
    check_match ops idx (.phrase phrase) pid = false := by
  unfold hasIdsPostings at hids
  constructor
  · unfold filter_query filter_has_phrase
    cases h : idx.postings with
    | ids _ => rfl
    | withPositions _ => rw [h] at hids; exact absurd hids (by simp)
  · unfold check_match check_has_phrase
    cases h : idx.postings with
    | ids _ =>
      cases (is_active idx pid) <;> simp
    | withPositions _ => rw [h] at hids; exact absurd hids (by simp)

/-- Witness for `phrase_query_empty_without_positions` at a concrete index
with `Ids` postings and trivial query operations. -/
theorem phrase_query_empty_without_positions_witness :
    filter_query
      ⟨fun _ _ => [], fun _ _ => [], fun _ _ _ => false, fun _ _ _ => false,
        fun _ _ _ => [], fun _ _ _ => false⟩
      ⟨.ids (fun _ => some [0, 1]), fun _ => some false, fun _ => some 2, 2⟩
      (.phrase [3, 4]) = [] ∧
    check_match
      ⟨fun _ _ => [], fun _ _ => [], fun _ _ _ => false, fun _ _ _ => false,
        fun _ _ _ => [], fun _ _ _ => false⟩
      ⟨.ids (fun _ => some [0, 1]), fun _ => some false, fun _ => some 2, 2⟩
      (.phrase [3, 4]) 0 = false :=
  phrase_query_empty_without_positions
    ⟨fun _ _ => [], fun _ _ => [], fun _ _ _ => false, fun _ _ _ => false,
      fun _ _ _ => [], fun _ _ _ => false⟩
    ⟨.ids (fun _ => some [0, 1]), fun _ => some false, fun _ => some 2, 2⟩
    [3, 4] 0 trivial

/-! ## Legacy point-to-tokens-count migration (`mmap_inverted_index/mod.rs`) — C4

The 64-bit targets of this repository (`x86_64`, `s390x`) have
`size_of::<usize>() == 8`, so the legacy word width is 8 bytes throughout. -/

/-- `u32::MAX`. -/
def U32_MAX : Nat := 4294967295

/-- `LegacyEndian` of the counts-file migration. -/
inductive LegacyEndianModel where
  | little
  | big
deriving DecidableEq, Repr

/-- `legacy_usize_from_le_bytes` on a 64-bit target. -/
def legacy_usize_from_le_bytes (bs : List Nat) : Nat := leVal bs

/-- `legacy_usize_from_be_bytes` on a 64-bit target. -/
def legacy_usize_from_be_bytes (bs : List Nat) : Nat := beVal bs

/-- The value of one legacy word under a chosen endianness. -/
def legacyWordValue (e : LegacyEndianModel) (bs : List Nat) : Nat :=
  match e with
  | .little => legacy_usize_from_le_bytes bs
  | .big => legacy_usize_from_be_bytes bs

/-- The sampling loop of `detect_legacy_counts_endian`: running
`(max_le, max_be, over_u32_le, over_u32_be)` over the first `sample` words. -/
def detectStats (bytes : List Nat) (sample : Nat) : Nat × Nat × Nat × Nat :=
  (List.range sample).foldl
    (fun acc i =>
      let le := legacy_usize_from_le_bytes (slice bytes (i * 8) 8)
      let be := legacy_usize_from_be_bytes (slice bytes (i * 8) 8)
      (max acc.1 le, max acc.2.1 be,
        acc.2.2.1 + (if U32_MAX < le then 1 else 0),
        acc.2.2.2 + (if U32_MAX < be then 1 else 0)))
    (0, 0, 0, 0)

/-- `detect_legacy_counts_endian`: prefer the interpretation with fewer values
exceeding `u32::MAX`, break ties with the smaller maximum, fall back to the
native byte order (`nativeBig`) on perfect ambiguity. -/
def detect_legacy_counts_endian (nativeBig : Bool) (bytes : List Nat) :
    LegacyEndianModel :=
  if bytes.length = 0 then (if nativeBig then .big else .little)
  else
    let len := bytes.length / 8
    let sample := min len 256
    let s := detectStats bytes sample
    if s.2.2.1 < s.2.2.2 then .little
    else if s.2.2.2 < s.2.2.1 then .big
    else if s.1 < s.2.1 then .little
    else if s.2.1 < s.1 then .big
    else (if nativeBig then .big else .little)

/-- Errors of `PointToTokensCount::migrate_legacy`, one per distinct
`service_error` message. -/
inductive CountsMigrateErr where
  | sizeNotMultipleOfWord
  | capacityOverflow (value : Nat)
deriving DecidableEq, Repr

/-- The conversion loop of `migrate_legacy`: narrow each word of the detected
endianness to `u32` LE, failing with the overflow error on a count above
`u32::MAX`. -/
def convertCountsLoop (bytes : List Nat) (e : LegacyEndianModel) :
    Nat → Nat → Except CountsMigrateErr (List Nat)
  | _, 0 => .ok []
  | i, r + 1 =>
    let v := legacyWordValue e (slice bytes (i * 8) 8)
    if U32_MAX < v then .error (.capacityOverflow v)
    else (convertCountsLoop bytes e (i + 1) r).map (fun rest => leBytes 4 v ++ rest)

/-- The 4-byte magic `"pttc"` of the new counts-file format. -/
def PTTC_MAGIC : List Nat := [112, 116, 116, 99]

/-- `PointToTokensCount::migrate_legacy`: reject sizes that are not a multiple
of the word width, detect the endianness, and atomically rewrite as
`"pttc" ++ version 1 ++ len ++ u32-LE counts`. The result is the content of
the rewritten file. -/
def migrate_legacy_counts (nativeBig : Bool) (bytes : List Nat) :
    Except CountsMigrateErr (List Nat) :=
  if bytes.length % 8 ≠ 0 then .error .sizeNotMultipleOfWord
  else
    let len := bytes.length / 8
    let e := detect_legacy_counts_endian nativeBig bytes
    (convertCountsLoop bytes e 0 len).map
      (fun counts => PTTC_MAGIC ++ leBytes 4 1 ++ leBytes 8 len ++ counts)

/-- C4 counterexample. The legacy one-word file written big-endian with token
count `2^32 > u32::MAX` does NOT fail migration: the detection heuristic sees
fewer over-`u32` values under the little-endian reading, reinterprets the word
as `2^24 = 16777216`, and the migration succeeds on both native byte orders —
the count is silently misread instead of raising the overflow error. -/
theorem counts_overflow_be_file_migrates_anyway :
    legacy_usize_from_be_bytes (slice (beBytes 8 4294967296) 0 8) = 4294967296 ∧
    U32_MAX < 4294967296 ∧
    migrate_legacy_counts true (beBytes 8 4294967296) =
      .ok (PTTC_MAGIC ++ leBytes 4 1 ++ leBytes 8 1 ++ leBytes 4 16777216) ∧
    migrate_legacy_counts false (beBytes 8 4294967296) =
      .ok (PTTC_MAGIC ++ leBytes 4 1 ++ leBytes 8 1 ++ leBytes 4 16777216) :=
  ⟨by decide, by decide, by rfl, by rfl⟩

theorem convertCountsLoop_overflow (bytes : List Nat) (e : LegacyEndianModel) :
    ∀ (r i : Nat),
      (∃ j, i ≤ j ∧ j < i + r ∧ U32_MAX < legacyWordValue e (slice bytes (j * 8) 8)) →
      ∃ v, convertCountsLoop bytes e i r = .error (.capacityOverflow v) ∧ U32_MAX < v := by
  intro r
  induction r with
  | zero =>
    rintro i ⟨j, h1, h2, _⟩
    omega
  | succ r ih =>
    rintro i ⟨j, h1, h2, h3⟩
    by_cases hc : U32_MAX < legacyWordValue e (slice bytes (i * 8) 8)
    · exact ⟨_, by simp only [convertCountsLoop, if_pos hc], hc⟩
    · have hij : i ≠ j := fun h => hc (h ▸ h3)
      obtain ⟨v, hv, hvgt⟩ := ih (i + 1) ⟨j, by omega, by omega, h3⟩
      refine ⟨v, ?_, hvgt⟩
      simp only [convertCountsLoop, if_neg hc, hv]
      rfl

/-- C4 amended. Migrating a legacy counts file fails with the descriptive
overflow error whenever the interpretation chosen by the endianness-detection
heuristic assigns some word a value above `u32::MAX`; a file whose counts
exceed `u32::MAX` only under the byte order it was written in may instead be
reinterpreted under the opposite byte order and migrate without error (see
`counts_overflow_be_file_migrates_anyway`). -/
theorem counts_migration_overflow_in_detected_endian
    (nativeBig : Bool) (bytes : List Nat)
    (hmul : bytes.length % 8 = 0)
    (hover : ∃ i, i < bytes.length / 8 ∧
      U32_MAX < legacyWordValue (detect_legacy_counts_endian nativeBig bytes)
        (slice bytes (i * 8) 8)) :
    ∃ v, migrate_legacy_counts nativeBig bytes = .error (.capacityOverflow v) ∧
      U32_MAX < v := by
  obtain ⟨i, hi, hgt⟩ := hover
  obtain ⟨v, hv, hvgt⟩ :=
    convertCountsLoop_overflow bytes (detect_legacy_counts_endian nativeBig bytes)
      (bytes.length / 8) 0 ⟨i, Nat.zero_le i, by omega, hgt⟩
  refine ⟨v, ?_, hvgt⟩
  unfold migrate_legacy_counts
  rw [if_neg (by omega)]
  simp only [hv]
  rfl

/-- Witness for `counts_migration_overflow_in_detected_endian`: the one-word
file of eight `0xFF` bytes overflows `u32` under both interpretations, so the
detected endianness (native fallback) overflows and migration fails. -/
theorem counts_migration_overflow_in_detected_endian_witness :
    (List.replicate 8 255).length % 8 = 0 ∧
    (∃ i, i < (List.replicate 8 255).length / 8 ∧
      U32_MAX < legacyWordValue (detect_legacy_counts_endian true (List.replicate 8 255))
        (slice (List.replicate 8 255) (i * 8) 8)) ∧
    ∃ v, migrate_legacy_counts true (List.replicate 8 255) =
        .error (.capacityOverflow v) ∧ U32_MAX < v :=
  ⟨by decide, ⟨0, by decide, by decide⟩,
    counts_migration_overflow_in_detected_endian true (List.replicate 8 255)
      (by decide) ⟨0, by decide, by decide⟩⟩

/-! ## Sparse inverted index load validation (`inverted_index_compressed_mmap.rs`) — C5

The layout constants (`size_of::<PostingListFileHeader<W>>`,
`size_of::<CompressedPostingChunk<W>>`, `size_of::<GenericPostingElement<W>>`,
`offset_of!(GenericPostingElement<W>, weight)`, weight and quantization-params
widths) are carried in a `SparseLayout` record; `f32SparseLayout` instantiates
them for `W = f32`. Weights are modelled by their on-disk little-endian byte
strings, a faithful representation for every supported weight type. -/

/-- Layout constants of the sparse index for one weight type `W`. -/
structure SparseLayout where
  headerSize : Nat
  chunkSize : Nat
  remainderSize : Nat
  weightSize : Nat
  qparamsSize : Nat
  weightOffset : Nat
deriving DecidableEq, Repr

/-- Layout for `W = f32`: header 24 bytes (8+4+4+4 plus align-8 padding),
chunk 8 + 128·4 bytes, remainder 4 + 4 bytes. -/
def f32SparseLayout : SparseLayout :=
  { headerSize := 24, chunkSize := 520, remainderSize := 8,
    weightSize := 4, qparamsSize := 0, weightOffset := 4 }

/-- `bitpacking::BitPacker4x::BLOCK_LEN`. -/
def BLOCK_LEN : Nat := 128

/-- Error kinds of the sparse decode path, one per distinct `invalid_data`
message. -/
inductive SparseErr where
  | invalidWeightSize
  | invalidQuantizationParams
  | invalidHeaderSize
  | invalidHeaderLayout
  | invalidChunksSize
  | invalidChunkLayout
  | invalidRemaindersSize
  | invalidRemaindersLayout
  | headerRegionExceedsFile
  | invalidPostingBoundaries
deriving DecidableEq, Repr

/-- `decode_weight_le`: every supported weight decodes from exactly
`weightSize` bytes (kept as the raw LE byte string). -/
def decode_weight_le (L : SparseLayout) (bs : List Nat) : Except SparseErr (List Nat) :=
  if bs.length ≠ L.weightSize then .error .invalidWeightSize else .ok bs

/-- `decode_quantization_params_le`: unit params must be empty,
`QuantizedU8Params` must be exactly its size — i.e. exactly `qparamsSize`
bytes. -/
def decode_quantization_params_le (L : SparseLayout) (bs : List Nat) :
    Except SparseErr (List Nat) :=
  if bs.length ≠ L.qparamsSize then .error .invalidQuantizationParams else .ok bs

/-- Decoded `PostingListFileHeader<W>`. -/
structure PostingListFileHeaderModel where
  ids_start : Nat
  last_id : Nat
  ids_len : Nat
  chunks_count : Nat
  quantization_params : List Nat
deriving DecidableEq, Repr

/-- `decode_posting_header_le`: field offsets 0/8/12/16/20 as in the source. -/
def decode_posting_header_le (L : SparseLayout) (data : List Nat) :
    Except SparseErr PostingListFileHeaderModel :=
  if data.length ≠ L.headerSize then .error .invalidHeaderSize
  else if L.headerSize < 20 + L.qparamsSize then .error .invalidHeaderLayout
  else
    match decode_quantization_params_le L (slice data 20 L.qparamsSize) with
    | .error e => .error e
    | .ok qp =>
      .ok { ids_start := leVal (slice data 0 8), last_id := leVal (slice data 8 4),
            ids_len := leVal (slice data 12 4), chunks_count := leVal (slice data 16 4),
            quantization_params := qp }

/-- Decoded `CompressedPostingChunk<W>`. -/
structure CompressedPostingChunkModel where
  initial : Nat
  offset : Nat
  weights : List (List Nat)
deriving DecidableEq, Repr

/-- One chunk: `initial` and `offset` as u32 LE at offsets 0 and 4, then
`BLOCK_LEN` weights. -/
def decodeOneChunk (L : SparseLayout) (cb : List Nat) :
    Except SparseErr CompressedPostingChunkModel :=
  match (List.range BLOCK_LEN).mapM
      (fun i => decode_weight_le L (slice cb (8 + i * L.weightSize) L.weightSize)) with
  | .error e => .error e
  | .ok ws => .ok { initial := leVal (slice cb 0 4), offset := leVal (slice cb 4 4),
                    weights := ws }

/-- `decode_chunks_le`. -/
def decode_chunks_le (L : SparseLayout) (bytes : List Nat) (count : Nat) :
    Except SparseErr (List CompressedPostingChunkModel) :=
  if bytes.length ≠ count * L.chunkSize then .error .invalidChunksSize
  else if L.chunkSize < 8 + BLOCK_LEN * L.weightSize then .error .invalidChunkLayout
  else (List.range count).mapM
    (fun i => decodeOneChunk L (slice bytes (i * L.chunkSize) L.chunkSize))

/-- Decoded `GenericPostingElement<W>`. -/
structure GenericPostingElementModel where
  record_id : Nat
  weight : List Nat
deriving DecidableEq, Repr

/-- `decode_remainders_le`: the region length must be a positive multiple of
`size_of::<GenericPostingElement<W>>`. -/
def decode_remainders_le (L : SparseLayout) (bytes : List Nat) :
    Except SparseErr (List GenericPostingElementModel) :=
  if L.remainderSize = 0 ∨ bytes.length % L.remainderSize ≠ 0 then
    .error .invalidRemaindersSize
  else if L.remainderSize < L.weightOffset + L.weightSize then
    .error .invalidRemaindersLayout
  else (List.range (bytes.length / L.remainderSize)).mapM
    (fun i =>
      match decode_weight_le L
          (slice bytes (i * L.remainderSize + L.weightOffset) L.weightSize) with
      | .error e => .error e
      | .ok w => .ok { record_id := leVal (slice bytes (i * L.remainderSize) 4),
                       weight := w })

/-- Decoded `CompressedPostingList<W>`. -/
structure CompressedPostingListModel where
  id_data : List Nat
  chunks : List CompressedPostingChunkModel
  remainders : List GenericPostingElementModel
  last_id : Option Nat
  quantization_params : List Nat
deriving DecidableEq, Repr

/-- The header table: `posting_count` headers of `headerSize` bytes each. -/
def decodeHeadersLoop (L : SparseLayout) (data : List Nat) (n : Nat) :
    Except SparseErr (List PostingListFileHeaderModel) :=
  (List.range n).mapM
    (fun i => decode_posting_header_le L (slice data (i * L.headerSize) L.headerSize))

/-- `ids_start` of header `i + 1`, or the file length for the last posting. -/
def nextIdsStart (headers : List PostingListFileHeaderModel) (dataLen i : Nat) : Nat :=
  match headers.get? (i + 1) with
  | some h2 => h2.ids_start
  | none => dataLen

/-- One posting body: boundary check
`ids_start ≤ ids_end ≤ chunks_end ≤ remainders_end ≤ file_len`, then slice and
decode the three regions. -/
def decodeOnePosting (L : SparseLayout) (data : List Nat)
    (h1 : PostingListFileHeaderModel) (remainders_end : Nat) :
    Except SparseErr CompressedPostingListModel :=
  let ids_start := h1.ids_start
  let ids_end := ids_start + h1.ids_len
  let chunks_end := ids_end + h1.chunks_count * L.chunkSize
  if ids_start ≤ ids_end ∧ ids_end ≤ chunks_end ∧ chunks_end ≤ remainders_end ∧
      remainders_end ≤ data.length then
    match decode_chunks_le L (slice data ids_end (chunks_end - ids_end)) h1.chunks_count with
    | .error e => .error e
    | .ok chunks =>
      match decode_remainders_le L (slice data chunks_end (remainders_end - chunks_end)) with
      | .error e => .error e
      | .ok remainders =>
        .ok { id_data := slice data ids_start h1.ids_len, chunks := chunks,
              remainders := remainders,
              last_id := if h1.last_id = 0 then none else some (h1.last_id - 1),
              quantization_params := h1.quantization_params }
  else .error .invalidPostingBoundaries

/-- `remainders_end` of the posting whose successors are `rest`: the next
header's `ids_start`, or the file length for the last posting. -/
def restNextStart (rest : List PostingListFileHeaderModel) (dataLen : Nat) : Nat :=
  match rest with
  | h2 :: _ => h2.ids_start
  | [] => dataLen

/-- The per-posting decode loop of `decode_postings_le`. -/
def decodePostingsLoop (L : SparseLayout) (data : List Nat) :
    List PostingListFileHeaderModel → Except SparseErr (List CompressedPostingListModel)
  | [] => .ok []
  | h1 :: rest =>
    match decodeOnePosting L data h1 (restNextStart rest data.length) with
    | .error e => .error e
    | .ok p =>
      match decodePostingsLoop L data rest with
      | .error e => .error e
      | .ok ps => .ok (p :: ps)

/-- `InvertedIndexCompressedMmap::decode_postings_le`. -/
def decode_postings_le (L : SparseLayout) (data : List Nat) (posting_count : Nat) :
    Except SparseErr (List CompressedPostingListModel) :=
  if data.length < posting_count * L.headerSize then .error .headerRegionExceedsFile
  else
    match decodeHeadersLoop L data posting_count with
    | .error e => .error e
    | .ok headers => decodePostingsLoop L data headers

/-- `InvertedIndexCompressedMmap::load`: on the big-endian target the postings
are decoded (and thereby validated) at load time; on little-endian hosts the
mmap is served zero-copy. -/
def load_sparse (bigHost : Bool) (L : SparseLayout) (posting_count : Nat)
    (data : List Nat) :
    Except SparseErr (Option (List CompressedPostingListModel)) :=
  if bigHost then (decode_postings_le L data posting_count).map some
  else .ok none

/-- The boundary chain of C5 for header `hd` followed by `nextStart`, plus the
remainder-region multiple condition. -/
def postingBoundsOk (L : SparseLayout) (dataLen : Nat)
    (hd : PostingListFileHeaderModel) (nextStart : Nat) : Prop :=
  hd.ids_start ≤ hd.ids_start + hd.ids_len ∧
  hd.ids_start + hd.ids_len ≤ hd.ids_start + hd.ids_len + hd.chunks_count * L.chunkSize ∧
  hd.ids_start + hd.ids_len + hd.chunks_count * L.chunkSize ≤ nextStart ∧
  nextStart ≤ dataLen ∧
  (nextStart - (hd.ids_start + hd.ids_len + hd.chunks_count * L.chunkSize))
    % L.remainderSize = 0

theorem length_slice (l : List Nat) (off len : Nat) :
    (slice l off len).length = min len (l.length - off) := by
  simp [slice]

theorem decode_remainders_ok_multiple {L : SparseLayout} {bytes : List Nat}
    {out : List GenericPostingElementModel}
    (h : decode_remainders_le L bytes = .ok out) :
    L.remainderSize ≠ 0 ∧ bytes.length % L.remainderSize = 0 := by
  unfold decode_remainders_le at h
  split at h
  · exact Except.noConfusion h
  · next hcond =>
    push_neg at hcond
    exact ⟨hcond.1, hcond.2⟩

/-- The default header used to state indexed access totally. -/
def defaultPostingHeader : PostingListFileHeaderModel :=
  { ids_start := 0, last_id := 0, ids_len := 0, chunks_count := 0,
    quantization_params := [] }

theorem decodeOnePosting_ok_bounds {L : SparseLayout} {data : List Nat}
    {h1 : PostingListFileHeaderModel} {rend : Nat} {p : CompressedPostingListModel}
    (h : decodeOnePosting L data h1 rend = .ok p) :
    postingBoundsOk L data.length h1 rend := by
  simp only [decodeOnePosting] at h
  split at h
  case isTrue hcond =>
    obtain ⟨hb1, hb2, hb3, hb4⟩ := hcond
    split at h
    case h_1 => exact Except.noConfusion h
    case h_2 chunks hchunks =>
      split at h
      case h_1 => exact Except.noConfusion h
      case h_2 remainders hrem =>
        have hmul := (decode_remainders_ok_multiple hrem).2
        rw [length_slice] at hmul
        have hmin : min
            (rend - (h1.ids_start + h1.ids_len + h1.chunks_count * L.chunkSize))
            (data.length - (h1.ids_start + h1.ids_len + h1.chunks_count * L.chunkSize)) =
            rend - (h1.ids_start + h1.ids_len + h1.chunks_count * L.chunkSize) := by
          omega
        rw [hmin] at hmul
        exact ⟨by omega, by omega, hb3, hb4, hmul⟩
  case isFalse => exact Except.noConfusion h

theorem decodePostingsLoop_ok_bounds (L : SparseLayout) (data : List Nat) :
    ∀ (hs : List PostingListFileHeaderModel) (ps : List CompressedPostingListModel),
      decodePostingsLoop L data hs = .ok ps →
      ∀ i, i < hs.length →
        postingBoundsOk L data.length (hs.getD i defaultPostingHeader)
          (nextIdsStart hs data.length i) := by
  intro hs
  induction hs with
  | nil =>
    intro ps _ i hi
    simp at hi
  | cons h1 rest ih =>
    intro ps hok i hi
    unfold decodePostingsLoop at hok
    split at hok
    case h_1 => exact Except.noConfusion hok
    case h_2 p hp =>
      split at hok
      case h_1 => exact Except.noConfusion hok
      case h_2 ps' hps' =>
        cases i with
        | zero =>
          have hb := decodeOnePosting_ok_bounds hp
          have hnext : nextIdsStart (h1 :: rest) data.length 0 =
              restNextStart rest data.length := by
            cases rest <;> rfl
          rw [List.getD_cons_zero, hnext]
          exact hb
        | succ i =>
          have hlen : i < rest.length := by simpa using hi
          have hrec := ih ps' hps' i hlen
          have hgd : (h1 :: rest).getD (i + 1) defaultPostingHeader =
              rest.getD i defaultPostingHeader := by
            simp [List.getD]
          have hns : nextIdsStart (h1 :: rest) data.length (i + 1) =
              nextIdsStart rest data.length i := rfl
          rw [hgd, hns]
          exact hrec

/-- C5. When loading a sparse inverted index succeeds on the big-endian target
(which decodes all postings at load time), every posting `i` satisfies
`ids_start_i ≤ ids_start_i + ids_len_i ≤ chunks_end_i ≤ ids_start_{i+1}`
(file length for the last posting) and the remainder region length is a
multiple of `sizeof(GenericPostingElement<W>)`; contrapositively, every file
violating one of these conditions is rejected with a descriptive error at
load time. -/
theorem sparse_load_validates_boundaries (L : SparseLayout) (data : List Nat)
    (n : Nat) (out : Option (List CompressedPostingListModel))
    (h : load_sparse true L n data = .ok out) :
    ∃ headers, decodeHeadersLoop L data n = .ok headers ∧
      ∀ i, i < headers.length →
        postingBoundsOk L data.length (headers.getD i defaultPostingHeader)
          (nextIdsStart headers data.length i) := by
  unfold load_sparse at h
  rw [if_pos rfl] at h
  unfold decode_postings_le at h
  split at h
  · exact Except.noConfusion h
  · split at h
    case h_1 => exact Except.noConfusion h
    case h_2 headers hheaders =>
      refine ⟨headers, hheaders, ?_⟩
      cases hps : decodePostingsLoop L data headers with
      | error e => rw [hps] at h; exact Except.noConfusion h
      | ok ps => exact decodePostingsLoop_ok_bounds L data headers ps hps

/-- Witness for `sparse_load_validates_boundaries`: a one-posting `f32` index
file consisting of a single 24-byte header (empty posting) loads successfully,
and its boundaries validate. -/
theorem sparse_load_validates_boundaries_witness :
    load_sparse true f32SparseLayout 1
        (leBytes 8 24 ++ leBytes 4 0 ++ leBytes 4 0 ++ leBytes 4 0 ++ zeros 4) =
      .ok (some [{ id_data := [], chunks := [], remainders := [], last_id := none,
                   quantization_params := [] }]) ∧
    ∃ headers,
      decodeHeadersLoop f32SparseLayout
          (leBytes 8 24 ++ leBytes 4 0 ++ leBytes 4 0 ++ leBytes 4 0 ++ zeros 4) 1 =
        .ok headers ∧
      ∀ i, i < headers.length →
        postingBoundsOk f32SparseLayout
          (leBytes 8 24 ++ leBytes 4 0 ++ leBytes 4 0 ++ leBytes 4 0 ++ zeros 4).length
          (headers.getD i defaultPostingHeader)
          (nextIdsStart headers
            (leBytes 8 24 ++ leBytes 4 0 ++ leBytes 4 0 ++ leBytes 4 0 ++ zeros 4).length i) :=
  ⟨by rfl,
    sparse_load_validates_boundaries f32SparseLayout
      (leBytes 8 24 ++ leBytes 4 0 ++ leBytes 4 0 ++ leBytes 4 0 ++ zeros 4) 1
      (some [{ id_data := [], chunks := [], remainders := [], last_id := none,
               quantization_params := [] }])
      (by rfl)⟩

/-! ## Graph links plain-format legacy BE fallback (`graph_links.rs`) — C2 -/

/-- Read one `w`-byte field from `bytes` at `off`, big- or little-endian. -/
def readField (big : Bool) (bytes : List Nat) (off w : Nat) : Nat :=
  if big then beVal (slice bytes off w) else leVal (slice bytes off w)

/-- Read `count` consecutive `w`-byte fields starting at `off`. -/
def readFields (big : Bool) (bytes : List Nat) (off w count : Nat) : List Nat :=
  (List.range count).map (fun i => readField big bytes (off + i * w) w)

/-- Zero-copy view over a decoded legacy plain graph-links file. -/
structure PlainGraphView where
  pointCount : Nat
  levelsCount : Nat
  levelOffsets : List Nat
  reindex : List Nat
  neighbors : List Nat
  offsets : List Nat
deriving DecidableEq, Repr

/-- Modelled from the spec: the graph-links decoder modules (`view.rs`,
`header.rs`, `serializer.rs` of `index/hnsw_index/graph_links/`) are not under
src/ — src/ holds only `graph_links.rs` with the telemetry descriptor and the
fixture tests. Per spec §4.2 a legacy (pre-versioning) plain file carries a
64-byte header region of five u64 fields — point count, levels count, total
neighbors count, total offsets count, offsets padding — followed by 24 bytes
of zero padding (as in the in-src fixture), then per-level offsets (u64),
reindex (u32), neighbors (u32) and offsets (u64). Structural constraints:
`levels_count > 0` whenever `points_count > 0`, the offsets padding resolves
the offsets table to 8-byte alignment, and the declared counts are consistent
with the file length. -/
def decodePlainLegacy (big : Bool) (bytes : List Nat) : Option PlainGraphView :=
  if bytes.length < 64 then none
  else
    let pc := readField big bytes 0 8
    let lc := readField big bytes 8 8
    let nc := readField big bytes 16 8
    let oc := readField big bytes 24 8
    let pad := readField big bytes 32 8
    if pc > 0 ∧ lc = 0 then none
    else
      let pos := 64 + 8 * lc + 4 * pc + 4 * nc
      if (pos + pad) % 8 ≠ 0 then none
      else if bytes.length ≠ pos + pad + 8 * oc then none
      else
        some { pointCount := pc, levelsCount := lc,
               levelOffsets := readFields big bytes 64 8 lc,
               reindex := readFields big bytes (64 + 8 * lc) 4 pc,
               neighbors := readFields big bytes (64 + 8 * lc + 4 * pc) 4 nc,
               offsets := readFields big bytes (pos + pad) 8 oc }

/-- Modelled from the spec: `links(point_id, level)` over the plain view. At
level 0 the neighbor range of point `p` is `offsets[p] .. offsets[p+1]`; at
higher levels the range index goes through `level_offsets[level]` and the
reindex permutation, per the layout comment in `graph_links.rs`. -/
def plainLinks (v : PlainGraphView) (p level : Nat) : List Nat :=
  let idx := if level = 0 then p else v.levelOffsets.getD level 0 + v.reindex.getD p 0
  let s := v.offsets.getD idx 0
  let e := v.offsets.getD (idx + 1) 0
  slice v.neighbors s (e - s)

/-- Error of the plain graph-links loader when neither byte order validates. -/
inductive GraphLinksErr where
  | structurallyInvalid
deriving DecidableEq, Repr

/-- Modelled from the spec: load a plain graph-links file — try the
little-endian header first; when its structural checks fail, fall back to the
big-endian interpretation and count the fallback in the
`legacy_plain_big_endian_fallback_loads` telemetry counter (the returned
number is the counter increment of this load, and the fallback is not an
error). -/
def graphLinksLoadPlain (bytes : List Nat) :
    Except GraphLinksErr (PlainGraphView × Nat) :=
  match decodePlainLegacy false bytes with
  | some v => .ok (v, 0)
  | none =>
    match decodePlainLegacy true bytes with
    | some v => .ok (v, 1)
    | none => .error .structurallyInvalid

/-- The crafted legacy plain file of
`test_load_plain_legacy_big_endian_fixture`: header fields and payload
integers big-endian, two points linked `{0 → [1], 1 → [0]}`. -/
def legacyPlainBigEndianFixture : List Nat :=
  beBytes 8 2 ++ beBytes 8 1 ++ beBytes 8 2 ++ beBytes 8 3 ++ beBytes 8 0 ++ zeros 24
    ++ beBytes 8 0
    ++ beBytes 4 0 ++ beBytes 4 1
    ++ beBytes 4 1 ++ beBytes 4 0
    ++ beBytes 8 0 ++ beBytes 8 1 ++ beBytes 8 2

/-- C2. Loading the crafted plain graph-links file with big-endian header
fields and payload integers succeeds via the fallback decode path (it is not
an error): `links(0,0) = [1]`, `links(1,0) = [0]`, and the
`legacy_plain_big_endian_fallback_loads` counter increases by exactly 1 for
that load. -/
theorem plain_legacy_be_fallback_loads :
    (graphLinksLoadPlain legacyPlainBigEndianFixture).map
        (fun r => (plainLinks r.1 0 0, plainLinks r.1 1 0, r.2)) =
      .ok ([1], [0], 1) := by
  rfl

/-! ## Point-to-values store (`mmap_point_to_values.rs`) — C1

The store is instantiated at the integer payload type (`IntPayloadType = i64`,
8-byte values whose `swap_legacy_be_value_in_place` reverses 8 bytes and
returns 8), the type named by the spec's boundary behavior. Values are `Int`s
in the `i64` range, encoded via their two's-complement 64-bit pattern. -/

/-- `PADDING_SIZE`: the `ranges_start == 4096` sentinel. -/
def PADDING_SIZE : Nat := 4096

/-- Decoded 16-byte header `(ranges_start, points_count)`. -/
structure PtvHeader where
  ranges_start : Nat
  points_count : Nat
deriving DecidableEq, Repr

/-- `HeaderDisk::read_from_` the first 16 bytes: the two raw 8-byte fields,
`none` when the file is shorter than a header. -/
def read_header_disk (file : List Nat) : Option (List Nat × List Nat) :=
  if 16 ≤ file.length then some (slice file 0 8, slice file 8 8) else none

/-- `HeaderDisk::decode_le`. -/
def decodeHeaderLe (hd : List Nat × List Nat) : PtvHeader :=
  { ranges_start := leVal hd.1, points_count := leVal hd.2 }

/-- `HeaderDisk::decode_be`. -/
def decodeHeaderBe (hd : List Nat × List Nat) : PtvHeader :=
  { ranges_start := beVal hd.1, points_count := beVal hd.2 }

/-- Two's-complement 64-bit pattern of an `i64` value. -/
def i64ToU64 (v : Int) : Nat :=
  (v % (2 ^ 64 : Int)).toNat

/-- The `i64` value of a 64-bit pattern. -/
def u64ToI64 (n : Nat) : Int :=
  if n < 2 ^ 63 then (n : Int) else (n : Int) - 2 ^ 64

/-- The inner loop of `migrate_legacy_be_in_place` over one point's values:
apply the `i64` `swap_legacy_be_value_in_place` (reverse the 8-byte value,
advance by the returned size 8) `count` times starting at `off`; `none` when
fewer than 8 bytes remain (the helper's `get_mut(..size)?` failure). -/
def swapIntValuesLoop : List Nat → Nat → Nat → Option (List Nat)
  | file, _, 0 => some file
  | file, off, c + 1 =>
    if off + 8 ≤ file.length then
      swapIntValuesLoop (reverseAt file off 8) (off + 8) c
    else none

/-- The per-point loop of `migrate_legacy_be_in_place`: read the BE range
record `i`, byte-swap its two 8-byte fields in place, then swap that point's
values. -/
def migratePointsLoop (rangesStart : Nat) : List Nat → Nat → Nat → Option (List Nat)
  | file, _, 0 => some file
  | file, i, r + 1 =>
    let off := rangesStart + i * 16
    if off + 16 ≤ file.length then
      let start := beVal (slice file off 8)
      let count := beVal (slice file (off + 8) 8)
      let file2 := reverseAt (reverseAt file off 8) (off + 8) 8
      match swapIntValuesLoop file2 start count with
      | some f3 => migratePointsLoop rangesStart f3 (i + 1) r
      | none => none
    else none

/-- `migrate_legacy_be_in_place`: re-check the BE sentinel and the minimum
length, byte-swap the two header fields, then migrate every point. -/
def migrate_legacy_be_in_place (file : List Nat) (hdrBe : PtvHeader) :
    Option (List Nat) :=
  if hdrBe.ranges_start ≠ PADDING_SIZE then none
  else if file.length < 16 then none
  else
    let f1 := reverseAt (reverseAt file 0 8) 8 8
    migratePointsLoop hdrBe.ranges_start f1 0 hdrBe.points_count

/-- The single error of `MmapPointToValues::open`
(`OperationError::InconsistentStorage`). -/
inductive PtvErr where
  | inconsistentStorage
deriving DecidableEq, Repr

/-- An opened `MmapPointToValues` handle: the (possibly migrated) file bytes
and the decoded header. -/
structure MmapPointToValuesModel where
  file : List Nat
  header : PtvHeader
deriving DecidableEq, Repr

/-- `MmapPointToValues::open`: little-endian fast path on the LE-4096
sentinel; otherwise in-place BE migration when the header decodes as BE-4096
followed by a little-endian re-read; any other header is rejected. -/
def openPointToValues (file : List Nat) : Except PtvErr MmapPointToValuesModel :=
  match read_header_disk file with
  | none => .error .inconsistentStorage
  | some hd =>
    let hLe := decodeHeaderLe hd
    if hLe.ranges_start = PADDING_SIZE then .ok { file := file, header := hLe }
    else
      let hBe := decodeHeaderBe hd
      if hBe.ranges_start ≠ PADDING_SIZE then .error .inconsistentStorage
      else
        match migrate_legacy_be_in_place file hBe with
        | none => .error .inconsistentStorage
        | some f2 =>
          match read_header_disk f2 with
          | none => .error .inconsistentStorage
          | some hd2 =>
            let hLe2 := decodeHeaderLe hd2
            if hLe2.ranges_start = PADDING_SIZE then .ok { file := f2, header := hLe2 }
            else .error .inconsistentStorage

/-- `MmapPointToValues::get_range`: the LE range record of one point, `none`
out of bounds. -/
def get_range (st : MmapPointToValuesModel) (pid : Nat) : Option (Nat × Nat) :=
  if pid < st.header.points_count then
    let off := st.header.ranges_start + pid * 16
    if off + 16 ≤ st.file.length then
      some (leVal (slice st.file off 8), leVal (slice st.file (off + 8) 8))
    else none
  else none

/-- The value iterator of `get_values` for `i64` values: repeatedly
`read_from_mmap` (8 LE bytes) and advance by `mmapped_size = 8`; the iterator
stops early when a read fails. -/
def collectIntValues (file : List Nat) : Nat → Nat → List Int
  | _, 0 => []
  | start, c + 1 =>
    if start + 8 ≤ file.length then
      u64ToI64 (leVal (slice file start 8)) :: collectIntValues file (start + 8) c
    else []

/-- `MmapPointToValues::get_values` for `i64` values, with the lazy iterator
materialized as the list it yields. -/
def get_values_int (st : MmapPointToValuesModel) (pid : Nat) : Option (List Int) :=
  (get_range st pid).map (fun r => collectIntValues st.file r.1 r.2)

/-! ### The legacy and canonical encodings of an integer point-to-values file -/

/-- Total number of values over all points. -/
def totalLen (vals : List (List Int)) : Nat :=
  (vals.map List.length).sum

/-- The `(start, count)` range records of consecutive points whose first value
region begins at `start`. -/
def rangesFrom (start : Nat) : List (List Int) → List (Nat × Nat)
  | [] => []
  | vs :: rest => (start, vs.length) :: rangesFrom (start + 8 * vs.length) rest

/-- Byte image of a list of range records under the byte-order encoder `e`. -/
def rangeBytes (e : Nat → Nat → List Nat) (rs : List (Nat × Nat)) : List Nat :=
  rs.flatMap (fun r => e 8 r.1 ++ e 8 r.2)

/-- Byte image of one point's values under `e`. -/
def valSeg (e : Nat → Nat → List Nat) (vs : List Int) : List Nat :=
  vs.flatMap (fun v => e 8 (i64ToU64 v))

/-- Byte image of all points' values under `e`. -/
def valueBytes (e : Nat → Nat → List Nat) (vss : List (List Int)) : List Nat :=
  vss.flatMap (valSeg e)

/-- Offset of the first value region: `ranges_start + 16 * points_count`. -/
def valuesStart (n : Nat) : Nat :=
  PADDING_SIZE + 16 * n

/-- A well-formed point-to-values file under the byte-order encoder `e`:
header, zero padding up to `ranges_start = 4096`, contiguous range records,
then the concatenated value regions in point order. -/
def encodePtvFile (e : Nat → Nat → List Nat) (vals : List (List Int)) : List Nat :=
  e 8 PADDING_SIZE ++ e 8 vals.length ++ zeros (PADDING_SIZE - 16)
    ++ rangeBytes e (rangesFrom (valuesStart vals.length) vals)
    ++ valueBytes e vals

/-- A legacy file written on a big-endian host before canonicalization. -/
def encodeLegacyBE (vals : List (List Int)) : List Nat :=
  encodePtvFile beBytes vals

/-- The canonical little-endian file. -/
def encodeCanonicalLE (vals : List (List Int)) : List Nat :=
  encodePtvFile leBytes vals

/-- The partially migrated file after the header swap and the first
`done.length` points: LE header, LE ranges and values for `done`, BE ranges
and values for `todo`. -/
def mixedPtvFile (n : Nat) (done todo : List (List Int)) : List Nat :=
  leBytes 8 PADDING_SIZE ++ leBytes 8 n ++ zeros (PADDING_SIZE - 16)
    ++ rangeBytes leBytes (rangesFrom (valuesStart n) done)
    ++ rangeBytes beBytes (rangesFrom (valuesStart n + 8 * totalLen done) todo)
    ++ valueBytes leBytes done
    ++ valueBytes beBytes todo

theorem length_zeros (n : Nat) : (zeros n).length = n := by
  simp [zeros]

theorem length_valSeg {e : Nat → Nat → List Nat} (he : ∀ v, (e 8 v).length = 8)
    (vs : List Int) : (valSeg e vs).length = 8 * vs.length := by
  induction vs with
  | nil => simp [valSeg]
  | cons v t ih =>
    simp only [valSeg, List.flatMap_cons, List.length_append] at ih ⊢
    rw [he, ih]
    simp only [List.length_cons]
    ring

theorem length_valueBytes {e : Nat → Nat → List Nat} (he : ∀ v, (e 8 v).length = 8)
    (vss : List (List Int)) : (valueBytes e vss).length = 8 * totalLen vss := by
  induction vss with
  | nil => simp [valueBytes, totalLen]
  | cons vs t ih =>
    simp only [valueBytes, List.flatMap_cons, List.length_append, totalLen,
      List.map_cons, List.sum_cons] at ih ⊢
    rw [length_valSeg he, ih]
    ring

theorem length_rangesFrom (s : Nat) (vals : List (List Int)) :
    (rangesFrom s vals).length = vals.length := by
  induction vals generalizing s with
  | nil => rfl
  | cons vs t ih => simp [rangesFrom, ih]

theorem length_rangeBytes {e : Nat → Nat → List Nat} (he : ∀ v, (e 8 v).length = 8)
    (rs : List (Nat × Nat)) : (rangeBytes e rs).length = 16 * rs.length := by
  induction rs with
  | nil => rfl
  | cons r t ih =>
    simp only [rangeBytes, List.flatMap_cons, List.length_append, List.length_cons] at ih ⊢
    rw [he, he, ih]
    ring

theorem length_leBytes8 (v : Nat) : (leBytes 8 v).length = 8 := length_leBytes 8 v

theorem length_beBytes8 (v : Nat) : (beBytes 8 v).length = 8 := length_beBytes 8 v

theorem totalLen_append (a b : List (List Int)) :
    totalLen (a ++ b) = totalLen a + totalLen b := by
  simp [totalLen]

theorem rangesFrom_append (a b : List (List Int)) :
    ∀ s, rangesFrom s (a ++ b) = rangesFrom s a ++ rangesFrom (s + 8 * totalLen a) b := by
  induction a with
  | nil => intro s; simp [rangesFrom, totalLen]
  | cons vs t ih =>
    intro s
    show (s, vs.length) :: rangesFrom (s + 8 * vs.length) (t ++ b) = _
    rw [ih]
    have h2 : s + 8 * vs.length + 8 * totalLen t = s + 8 * totalLen (vs :: t) := by
      simp [totalLen]
      ring
    rw [h2]
    rfl

theorem rangeBytes_append (e : Nat → Nat → List Nat) (a b : List (Nat × Nat)) :
    rangeBytes e (a ++ b) = rangeBytes e a ++ rangeBytes e b := by
  simp [rangeBytes]

theorem valueBytes_append (e : Nat → Nat → List Nat) (a b : List (List Int)) :
    valueBytes e (a ++ b) = valueBytes e a ++ valueBytes e b := by
  simp [valueBytes]

theorem length_mixedPtvFile (n : Nat) (done todo : List (List Int)) :
    (mixedPtvFile n done todo).length =
      PADDING_SIZE + 16 * (done.length + todo.length) +
        8 * (totalLen done + totalLen todo) := by
  simp only [mixedPtvFile, List.length_append, length_leBytes8, length_zeros,
    length_rangeBytes (fun v => length_leBytes8 v),
    length_rangeBytes (fun v => length_beBytes8 v),
    length_valueBytes (fun v => length_leBytes8 v),
    length_valueBytes (fun v => length_beBytes8 v),
    length_rangesFrom]
  unfold PADDING_SIZE
  ring

theorem length_encodePtvFile_be (vals : List (List Int)) :
    (encodeLegacyBE vals).length =
      PADDING_SIZE + 16 * vals.length + 8 * totalLen vals := by
  simp only [encodeLegacyBE, encodePtvFile, List.length_append, length_beBytes8,
    length_zeros, length_rangeBytes (fun v => length_beBytes8 v),
    length_valueBytes (fun v => length_beBytes8 v), length_rangesFrom]
  unfold PADDING_SIZE
  ring

theorem length_encodePtvFile_le (vals : List (List Int)) :
    (encodeCanonicalLE vals).length =
      PADDING_SIZE + 16 * vals.length + 8 * totalLen vals := by
  simp only [encodeCanonicalLE, encodePtvFile, List.length_append, length_leBytes8,
    length_zeros, length_rangeBytes (fun v => length_leBytes8 v),
    length_valueBytes (fun v => length_leBytes8 v), length_rangesFrom]
  unfold PADDING_SIZE
  ring

theorem swapIntValuesLoop_seg :
    ∀ (vs : List Int) (pre post : List Nat),
      swapIntValuesLoop (pre ++ (valSeg beBytes vs ++ post)) pre.length vs.length =
        some (pre ++ (valSeg leBytes vs ++ post)) := by
  intro vs
  induction vs with
  | nil =>
    intro pre post
    simp [swapIntValuesLoop, valSeg]
  | cons v t ih =>
    intro pre post
    have hfile : pre ++ (valSeg beBytes (v :: t) ++ post) =
        pre ++ beBytes 8 (i64ToU64 v) ++ (valSeg beBytes t ++ post) := by
      simp [valSeg, List.append_assoc]
    rw [hfile]
    show swapIntValuesLoop _ pre.length (t.length + 1) = _
    have hlenf : (pre ++ beBytes 8 (i64ToU64 v) ++ (valSeg beBytes t ++ post)).length =
        pre.length + 8 + (8 * t.length + post.length) := by
      simp [length_beBytes8, length_valSeg (fun v => length_beBytes8 v)]
      ring
    simp only [swapIntValuesLoop]
    rw [if_pos (by omega)]
    have hrev : reverseAt (pre ++ beBytes 8 (i64ToU64 v) ++ (valSeg beBytes t ++ post))
        pre.length 8 =
        pre ++ leBytes 8 (i64ToU64 v) ++ (valSeg beBytes t ++ post) := by
      rw [reverseAt_append_exact rfl rfl (length_beBytes8 _), reverse_beBytes]
    rw [hrev]
    have hoff : pre.length + 8 = (pre ++ leBytes 8 (i64ToU64 v)).length := by
      simp [length_leBytes8]
    have hassoc : pre ++ leBytes 8 (i64ToU64 v) ++ (valSeg beBytes t ++ post) =
        (pre ++ leBytes 8 (i64ToU64 v)) ++ (valSeg beBytes t ++ post) := by
      simp [List.append_assoc]
    rw [hoff, hassoc, ih]
    simp [valSeg, List.append_assoc]

theorem beVal_beBytes8 {v : Nat} (h : v < 2 ^ 64) : beVal (beBytes 8 v) = v := by
  apply beVal_beBytes
  have h2 : (256 : Nat) ^ 8 = 2 ^ 64 := by norm_num
  rw [h2]
  exact h

theorem leVal_leBytes8 {v : Nat} (h : v < 2 ^ 64) : leVal (leBytes 8 v) = v := by
  apply leVal_leBytes
  have h2 : (256 : Nat) ^ 8 = 2 ^ 64 := by norm_num
  rw [h2]
  exact h

theorem slice_of_decomp (pre seg post : List Nat) {l : List Nat} {off len : Nat}
    (hl : l = pre ++ seg ++ post) (hoff : pre.length = off) (hlen : seg.length = len) :
    slice l off len = seg :=
  slice_append_exact' hl hoff hlen

theorem reverseAt_of_decomp (pre seg post : List Nat) {l : List Nat} {off len : Nat}
    (hl : l = pre ++ seg ++ post) (hoff : pre.length = off) (hlen : seg.length = len) :
    reverseAt l off len = pre ++ seg.reverse ++ post :=
  reverseAt_append_exact hl hoff hlen

theorem totalLen_nil : totalLen [] = 0 := rfl

theorem totalLen_cons (vs : List Int) (t : List (List Int)) :
    totalLen (vs :: t) = vs.length + totalLen t := by
  simp [totalLen]

theorem migratePointsLoop_mixed (vals : List (List Int)) (n : Nat)
    (hn : n = vals.length)
    (hsz : valuesStart n + 8 * totalLen vals < 2 ^ 64) :
    ∀ (todo done : List (List Int)), done ++ todo = vals →
      migratePointsLoop PADDING_SIZE (mixedPtvFile n done todo) done.length todo.length =
        some (mixedPtvFile n vals []) := by
  intro todo
  induction todo with
  | nil =>
    intro done hdt
    rw [List.append_nil] at hdt
    subst hdt
    rfl
  | cons vs rest ih =>
    intro done hdt
    have hpad : PADDING_SIZE = 4096 := rfl
    have hvst : valuesStart n = PADDING_SIZE + 16 * n := rfl
    have hnlen : n = done.length + (1 + rest.length) := by
      rw [hn, ← hdt]
      simp
      omega
    have htot : totalLen vals = totalLen done + (vs.length + totalLen rest) := by
      rw [← hdt, totalLen_append, totalLen_cons]
    set P0 := leBytes 8 PADDING_SIZE ++ leBytes 8 n ++ zeros (PADDING_SIZE - 16) ++
      rangeBytes leBytes (rangesFrom (valuesStart n) done) with hP0
    set RB := rangeBytes beBytes
      (rangesFrom (valuesStart n + 8 * totalLen done + 8 * vs.length) rest) with hRB
    set VL := valueBytes leBytes done with hVL
    set VB := valueBytes beBytes rest with hVB
    have hP0len : P0.length = PADDING_SIZE + 16 * done.length := by
      rw [hP0]
      simp [length_leBytes8, length_zeros,
        length_rangeBytes (fun v => length_leBytes8 v), length_rangesFrom]
      omega
    have hRBlen : RB.length = 16 * rest.length := by
      rw [hRB, length_rangeBytes (fun v => length_beBytes8 v), length_rangesFrom]
    have hVLlen : VL.length = 8 * totalLen done := by
      rw [hVL, length_valueBytes (fun v => length_leBytes8 v)]
    have hVBlen : VB.length = 8 * totalLen rest := by
      rw [hVB, length_valueBytes (fun v => length_beBytes8 v)]
    have hshape : mixedPtvFile n done (vs :: rest) =
        P0 ++ beBytes 8 (valuesStart n + 8 * totalLen done) ++
          (beBytes 8 vs.length ++ (RB ++ (VL ++ (valSeg beBytes vs ++ VB)))) := by
      rw [hP0, hRB, hVL, hVB]
      simp [mixedPtvFile, rangesFrom, rangeBytes, valueBytes, List.append_assoc]
    have hs1lt : valuesStart n + 8 * totalLen done < 2 ^ 64 := by
      omega
    have hcountlt : vs.length < 2 ^ 64 := by
      omega
    have hfull : (mixedPtvFile n done (vs :: rest)).length =
        PADDING_SIZE + 16 * n + 8 * totalLen vals := by
      rw [length_mixedPtvFile, totalLen_cons]
      simp only [List.length_cons]
      omega
    show migratePointsLoop PADDING_SIZE _ done.length (rest.length + 1) = _
    simp only [migratePointsLoop]
    rw [if_pos (by rw [hfull]; omega)]
    have hslice1 : slice (mixedPtvFile n done (vs :: rest))
        (PADDING_SIZE + done.length * 16) 8 =
        beBytes 8 (valuesStart n + 8 * totalLen done) := by
      refine slice_of_decomp P0 (beBytes 8 (valuesStart n + 8 * totalLen done))
        (beBytes 8 vs.length ++ (RB ++ (VL ++ (valSeg beBytes vs ++ VB))))
        ?_ ?_ (length_beBytes8 _)
      · rw [hshape]
      · rw [hP0len]
        ring
    have hslice2 : slice (mixedPtvFile n done (vs :: rest))
        (PADDING_SIZE + done.length * 16 + 8) 8 = beBytes 8 vs.length := by
      refine slice_of_decomp (P0 ++ beBytes 8 (valuesStart n + 8 * totalLen done))
        (beBytes 8 vs.length) (RB ++ (VL ++ (valSeg beBytes vs ++ VB)))
        ?_ ?_ (length_beBytes8 _)
      · rw [hshape]
        simp [List.append_assoc]
      · simp only [List.length_append, length_beBytes8]
        omega
    rw [hslice1, hslice2, beVal_beBytes8 hs1lt, beVal_beBytes8 hcountlt]
    have hrev1 : reverseAt (mixedPtvFile n done (vs :: rest))
        (PADDING_SIZE + done.length * 16) 8 =
        P0 ++ leBytes 8 (valuesStart n + 8 * totalLen done) ++
          (beBytes 8 vs.length ++ (RB ++ (VL ++ (valSeg beBytes vs ++ VB)))) := by
      rw [← reverse_beBytes 8 (valuesStart n + 8 * totalLen done)]
      exact reverseAt_of_decomp P0 (beBytes 8 (valuesStart n + 8 * totalLen done))
        (beBytes 8 vs.length ++ (RB ++ (VL ++ (valSeg beBytes vs ++ VB))))
        hshape (by rw [hP0len]; ring) (length_beBytes8 _)
    rw [hrev1]
    have hrev2 : reverseAt (P0 ++ leBytes 8 (valuesStart n + 8 * totalLen done) ++
          (beBytes 8 vs.length ++ (RB ++ (VL ++ (valSeg beBytes vs ++ VB)))))
        (PADDING_SIZE + done.length * 16 + 8) 8 =
        (P0 ++ leBytes 8 (valuesStart n + 8 * totalLen done)) ++ leBytes 8 vs.length ++
          (RB ++ (VL ++ (valSeg beBytes vs ++ VB))) := by
      rw [← reverse_beBytes 8 vs.length]
      exact reverseAt_of_decomp
        (P0 ++ leBytes 8 (valuesStart n + 8 * totalLen done)) (beBytes 8 vs.length)
        (RB ++ (VL ++ (valSeg beBytes vs ++ VB)))
        (by simp [List.append_assoc])
        (by simp only [List.length_append, length_leBytes8, hP0len]; ring)
        (length_beBytes8 _)
    rw [hrev2]
    have hpre : ((P0 ++ leBytes 8 (valuesStart n + 8 * totalLen done)) ++
        leBytes 8 vs.length ++ (RB ++ VL)).length =
        valuesStart n + 8 * totalLen done := by
      simp only [List.length_append, length_leBytes8, hP0len, hRBlen, hVLlen]
      omega
    have hswap : swapIntValuesLoop
        ((P0 ++ leBytes 8 (valuesStart n + 8 * totalLen done)) ++ leBytes 8 vs.length ++
          (RB ++ (VL ++ (valSeg beBytes vs ++ VB))))
        (valuesStart n + 8 * totalLen done) vs.length =
        some (((P0 ++ leBytes 8 (valuesStart n + 8 * totalLen done)) ++
          leBytes 8 vs.length ++ (RB ++ VL)) ++ (valSeg leBytes vs ++ VB)) := by
      have hfile2 : (P0 ++ leBytes 8 (valuesStart n + 8 * totalLen done)) ++
          leBytes 8 vs.length ++ (RB ++ (VL ++ (valSeg beBytes vs ++ VB))) =
          ((P0 ++ leBytes 8 (valuesStart n + 8 * totalLen done)) ++ leBytes 8 vs.length ++
            (RB ++ VL)) ++ (valSeg beBytes vs ++ VB) := by
        simp [List.append_assoc]
      have hs := swapIntValuesLoop_seg vs
        ((P0 ++ leBytes 8 (valuesStart n + 8 * totalLen done)) ++ leBytes 8 vs.length ++
          (RB ++ VL)) VB
      rw [hpre] at hs
      rw [hfile2]
      exact hs
    rw [hswap]
    have harith : valuesStart n + 8 * totalLen (done ++ [vs]) =
        valuesStart n + 8 * totalLen done + 8 * vs.length := by
      rw [totalLen_append, totalLen_cons, totalLen_nil]
      ring
    have hnew : ((P0 ++ leBytes 8 (valuesStart n + 8 * totalLen done)) ++
        leBytes 8 vs.length ++ (RB ++ VL)) ++ (valSeg leBytes vs ++ VB) =
        mixedPtvFile n (done ++ [vs]) rest := by
      rw [hP0, hRB, hVL, hVB]
      simp only [mixedPtvFile, rangesFrom_append, rangeBytes_append, valueBytes_append,
        harith]
      have hrange1 : rangesFrom (valuesStart n + 8 * totalLen done) [vs] =
          [(valuesStart n + 8 * totalLen done, vs.length)] := rfl
      have hrb1 : rangeBytes leBytes
          [(valuesStart n + 8 * totalLen done, vs.length)] =
          leBytes 8 (valuesStart n + 8 * totalLen done) ++ leBytes 8 vs.length ++ [] := by
        simp [rangeBytes]
      have hvb1 : valueBytes leBytes [vs] = valSeg leBytes vs := by
        simp [valueBytes]
      rw [hrange1, hrb1, hvb1]
      simp [List.append_assoc]
    rw [hnew]
    have hlen1 : done.length + 1 = (done ++ [vs]).length := by simp
    rw [hlen1]
    exact ih (done ++ [vs]) (by rw [← hdt]; simp)

theorem mixedPtvFile_all (vals : List (List Int)) :
    mixedPtvFile vals.length vals [] = encodeCanonicalLE vals := by
  simp [mixedPtvFile, encodeCanonicalLE, encodePtvFile, rangesFrom, rangeBytes, valueBytes]

theorem mixedPtvFile_none (vals : List (List Int)) :
    mixedPtvFile vals.length [] vals =
      leBytes 8 PADDING_SIZE ++ leBytes 8 vals.length ++ zeros (PADDING_SIZE - 16)
        ++ rangeBytes beBytes (rangesFrom (valuesStart vals.length) vals)
        ++ valueBytes beBytes vals := by
  simp [mixedPtvFile, rangesFrom, rangeBytes, valueBytes, totalLen_nil]

theorem migrate_encodeLegacyBE (vals : List (List Int))
    (hsz : valuesStart vals.length + 8 * totalLen vals < 2 ^ 64) :
    migrate_legacy_be_in_place (encodeLegacyBE vals)
      { ranges_start := PADDING_SIZE, points_count := vals.length } =
      some (encodeCanonicalLE vals) := by
  have hpad : PADDING_SIZE = 4096 := rfl
  have hvst : valuesStart vals.length = PADDING_SIZE + 16 * vals.length := rfl
  have hlenB := length_encodePtvFile_be vals
  unfold migrate_legacy_be_in_place
  rw [if_neg (by simp), if_neg (by omega)]
  set REST1 := beBytes 8 vals.length ++
    (zeros (PADDING_SIZE - 16) ++
      (rangeBytes beBytes (rangesFrom (valuesStart vals.length) vals) ++
        valueBytes beBytes vals)) with hR1
  have h1 : reverseAt (encodeLegacyBE vals) 0 8 =
      [] ++ leBytes 8 PADDING_SIZE ++ REST1 := by
    rw [← reverse_beBytes 8 PADDING_SIZE]
    exact reverseAt_of_decomp [] (beBytes 8 PADDING_SIZE) REST1
      (by rw [hR1]; simp [encodeLegacyBE, encodePtvFile, List.append_assoc]) rfl
      (length_beBytes8 _)
  rw [h1]
  set REST2 := zeros (PADDING_SIZE - 16) ++
    (rangeBytes beBytes (rangesFrom (valuesStart vals.length) vals) ++
      valueBytes beBytes vals) with hR2
  have h2 : reverseAt ([] ++ leBytes 8 PADDING_SIZE ++ REST1) 8 8 =
      ([] ++ leBytes 8 PADDING_SIZE) ++ leBytes 8 vals.length ++ REST2 := by
    rw [← reverse_beBytes 8 vals.length]
    exact reverseAt_of_decomp ([] ++ leBytes 8 PADDING_SIZE) (beBytes 8 vals.length)
      REST2 (by rw [hR1, hR2]; simp [List.append_assoc])
      (by simp [length_leBytes8]) (length_beBytes8 _)
  rw [h2]
  have h3 : ([] ++ leBytes 8 PADDING_SIZE) ++ leBytes 8 vals.length ++ REST2 =
      mixedPtvFile vals.length [] vals := by
    rw [hR2, mixedPtvFile_none]
    simp [List.append_assoc]
  rw [h3]
  have h4 := migratePointsLoop_mixed vals vals.length rfl hsz vals [] rfl
  simp only [List.length_nil] at h4
  rw [h4, mixedPtvFile_all]

theorem i64ToU64_lt (v : Int) : i64ToU64 v < 2 ^ 64 := by
  unfold i64ToU64
  have h2p : ((2 : Int) ^ 64) = 18446744073709551616 := by norm_num
  have hnn := Int.emod_nonneg v (by rw [h2p]; norm_num : ((2 : Int) ^ 64) ≠ 0)
  have hlt := Int.emod_lt_of_pos v (by rw [h2p]; norm_num : (0 : Int) < 2 ^ 64)
  rw [h2p] at hnn hlt
  have : (2 : Nat) ^ 64 = 18446744073709551616 := by norm_num
  rw [this]
  omega

theorem u64ToI64_i64ToU64 {v : Int} (h1 : -(2 ^ 63) ≤ v) (h2 : v < 2 ^ 63) :
    u64ToI64 (i64ToU64 v) = v := by
  unfold u64ToI64 i64ToU64
  have h2p : ((2 : Int) ^ 64) = 18446744073709551616 := by norm_num
  have h2p63 : ((2 : Int) ^ 63) = 9223372036854775808 := by norm_num
  have h2pn : ((2 : Nat) ^ 63) = 9223372036854775808 := by norm_num
  rw [h2p63] at h1 h2
  have hnn := Int.emod_nonneg v (by norm_num : (18446744073709551616 : Int) ≠ 0)
  have hlt := Int.emod_lt_of_pos v (by norm_num : (0 : Int) < 18446744073709551616)
  rw [h2p, h2pn]
  split <;> omega

theorem collect_valSeg :
    ∀ (vs : List Int) (pre post : List Nat),
      (∀ v ∈ vs, -(2 ^ 63) ≤ v ∧ v < 2 ^ 63) →
      collectIntValues (pre ++ (valSeg leBytes vs ++ post)) pre.length vs.length = vs := by
  intro vs
  induction vs with
  | nil =>
    intro pre post _
    rfl
  | cons v t ih =>
    intro pre post hb
    have hv := hb v (List.mem_cons_self v t)
    have ht : ∀ x ∈ t, -(2 ^ 63) ≤ x ∧ x < 2 ^ 63 :=
      fun x hx => hb x (List.mem_cons_of_mem v hx)
    have hfile : pre ++ (valSeg leBytes (v :: t) ++ post) =
        pre ++ leBytes 8 (i64ToU64 v) ++ (valSeg leBytes t ++ post) := by
      simp [valSeg, List.append_assoc]
    rw [hfile]
    show collectIntValues _ pre.length (t.length + 1) = _
    have hlf : (pre ++ leBytes 8 (i64ToU64 v) ++ (valSeg leBytes t ++ post)).length =
        pre.length + 8 + (8 * t.length + post.length) := by
      simp [length_leBytes8, length_valSeg (fun x => length_leBytes8 x)]
      ring
    simp only [collectIntValues]
    rw [if_pos (by omega)]
    have hsl : slice (pre ++ leBytes 8 (i64ToU64 v) ++ (valSeg leBytes t ++ post))
        pre.length 8 = leBytes 8 (i64ToU64 v) :=
      slice_of_decomp pre (leBytes 8 (i64ToU64 v)) (valSeg leBytes t ++ post)
        rfl rfl (length_leBytes8 _)
    rw [hsl, leVal_leBytes8 (i64ToU64_lt v), u64ToI64_i64ToU64 hv.1 hv.2]
    have hoff : pre.length + 8 = (pre ++ leBytes 8 (i64ToU64 v)).length := by
      simp [length_leBytes8]
    have hassoc : pre ++ leBytes 8 (i64ToU64 v) ++ (valSeg leBytes t ++ post) =
        (pre ++ leBytes 8 (i64ToU64 v)) ++ (valSeg leBytes t ++ post) := by
      simp [List.append_assoc]
    rw [hoff, hassoc, ih (pre ++ leBytes 8 (i64ToU64 v)) post ht]

theorem rangeRecord_slice :
    ∀ (todo : List (List Int)) (pid : Nat) (pre post : List Nat) (s : Nat),
      pid < todo.length →
      slice (pre ++ (rangeBytes leBytes (rangesFrom s todo) ++ post))
          (pre.length + 16 * pid) 8 =
        leBytes 8 (s + 8 * totalLen (todo.take pid)) ∧
      slice (pre ++ (rangeBytes leBytes (rangesFrom s todo) ++ post))
          (pre.length + 16 * pid + 8) 8 =
        leBytes 8 (todo.getD pid []).length := by
  intro todo
  induction todo with
  | nil =>
    intro pid pre post s hpid
    simp at hpid
  | cons vs rest ih =>
    intro pid pre post s hpid
    have hflat : rangeBytes leBytes (rangesFrom s (vs :: rest)) =
        leBytes 8 s ++ (leBytes 8 vs.length ++
          rangeBytes leBytes (rangesFrom (s + 8 * vs.length) rest)) := by
      simp [rangesFrom, rangeBytes, List.append_assoc]
    cases pid with
    | zero =>
      constructor
      · have : slice (pre ++ (rangeBytes leBytes (rangesFrom s (vs :: rest)) ++ post))
            (pre.length + 16 * 0) 8 = leBytes 8 s := by
          refine slice_of_decomp pre (leBytes 8 s)
            ((leBytes 8 vs.length ++
              rangeBytes leBytes (rangesFrom (s + 8 * vs.length) rest)) ++ post)
            ?_ (by omega) (length_leBytes8 _)
          rw [hflat]
          simp [List.append_assoc]
        rw [this]
        simp [totalLen_nil]
      · have : slice (pre ++ (rangeBytes leBytes (rangesFrom s (vs :: rest)) ++ post))
            (pre.length + 16 * 0 + 8) 8 = leBytes 8 vs.length := by
          refine slice_of_decomp (pre ++ leBytes 8 s) (leBytes 8 vs.length)
            (rangeBytes leBytes (rangesFrom (s + 8 * vs.length) rest) ++ post)
            ?_ (by simp only [List.length_append, length_leBytes8])
            (length_leBytes8 _)
          rw [hflat]
          simp [List.append_assoc]
        rw [this]
        rfl
    | succ pid =>
      have hrest : pid < rest.length := by simpa using hpid
      have hih := ih pid (pre ++ leBytes 8 s ++ leBytes 8 vs.length) post
        (s + 8 * vs.length) hrest
      have hfile : pre ++ (rangeBytes leBytes (rangesFrom s (vs :: rest)) ++ post) =
          (pre ++ leBytes 8 s ++ leBytes 8 vs.length) ++
            (rangeBytes leBytes (rangesFrom (s + 8 * vs.length) rest) ++ post) := by
        rw [hflat]
        simp [List.append_assoc]
      have hoffeq : pre.length + 16 * (pid + 1) =
          (pre ++ leBytes 8 s ++ leBytes 8 vs.length).length + 16 * pid := by
        simp [length_leBytes8]
        omega
      have htake : s + 8 * vs.length + 8 * totalLen (rest.take pid) =
          s + 8 * totalLen ((vs :: rest).take (pid + 1)) := by
        simp [List.take, totalLen_cons]
        ring
      constructor
      · rw [hfile, hoffeq, hih.1, htake]
      · rw [hfile, hoffeq, hih.2]
        rfl

set_option maxHeartbeats 2000000 in
theorem open_encodeLegacyBE (vals : List (List Int))
    (hsz : valuesStart vals.length + 8 * totalLen vals < 2 ^ 64) :
    openPointToValues (encodeLegacyBE vals) =
      .ok { file := encodeCanonicalLE vals,
            header := { ranges_start := PADDING_SIZE, points_count := vals.length } } := by
  have hpad : PADDING_SIZE = 4096 := rfl
  have hvst : valuesStart vals.length = PADDING_SIZE + 16 * vals.length := rfl
  have hlenB := length_encodePtvFile_be vals
  have hlenL := length_encodePtvFile_le vals
  have h2pn4 : (2 : Nat) ^ 64 = 18446744073709551616 := by norm_num
  rw [h2pn4] at hsz
  have hn64 : vals.length < 2 ^ 64 := by rw [h2pn4]; omega
  have hp64 : PADDING_SIZE < 2 ^ 64 := by rw [h2pn4]; omega
  have hslice0 : slice (encodeLegacyBE vals) 0 8 = beBytes 8 PADDING_SIZE := by
    refine slice_of_decomp [] (beBytes 8 PADDING_SIZE)
      (beBytes 8 vals.length ++ (zeros (PADDING_SIZE - 16) ++
        (rangeBytes beBytes (rangesFrom (valuesStart vals.length) vals) ++
          valueBytes beBytes vals))) ?_ rfl (length_beBytes8 _)
    simp [encodeLegacyBE, encodePtvFile, List.append_assoc]
  have hslice8 : slice (encodeLegacyBE vals) 8 8 = beBytes 8 vals.length := by
    refine slice_of_decomp ([] ++ beBytes 8 PADDING_SIZE) (beBytes 8 vals.length)
      (zeros (PADDING_SIZE - 16) ++
        (rangeBytes beBytes (rangesFrom (valuesStart vals.length) vals) ++
          valueBytes beBytes vals)) ?_ (by simp [length_beBytes8]) (length_beBytes8 _)
    simp [encodeLegacyBE, encodePtvFile, List.append_assoc]
  have hread : read_header_disk (encodeLegacyBE vals) =
      some (beBytes 8 PADDING_SIZE, beBytes 8 vals.length) := by
    unfold read_header_disk
    rw [if_pos (by omega), hslice0, hslice8]
  have hbe : decodeHeaderBe (beBytes 8 PADDING_SIZE, beBytes 8 vals.length) =
      { ranges_start := PADDING_SIZE, points_count := vals.length } := by
    unfold decodeHeaderBe
    rw [beVal_beBytes8 hp64, beVal_beBytes8 hn64]
  have hreadL : read_header_disk (encodeCanonicalLE vals) =
      some (leBytes 8 PADDING_SIZE, leBytes 8 vals.length) := by
    unfold read_header_disk
    rw [if_pos (by omega)]
    have hs0 : slice (encodeCanonicalLE vals) 0 8 = leBytes 8 PADDING_SIZE := by
      refine slice_of_decomp [] (leBytes 8 PADDING_SIZE)
        (leBytes 8 vals.length ++ (zeros (PADDING_SIZE - 16) ++
          (rangeBytes leBytes (rangesFrom (valuesStart vals.length) vals) ++
            valueBytes leBytes vals))) ?_ rfl (length_leBytes8 _)
      simp [encodeCanonicalLE, encodePtvFile, List.append_assoc]
    have hs8 : slice (encodeCanonicalLE vals) 8 8 = leBytes 8 vals.length := by
      refine slice_of_decomp ([] ++ leBytes 8 PADDING_SIZE) (leBytes 8 vals.length)
        (zeros (PADDING_SIZE - 16) ++
          (rangeBytes leBytes (rangesFrom (valuesStart vals.length) vals) ++
            valueBytes leBytes vals)) ?_ (by simp [length_leBytes8]) (length_leBytes8 _)
      simp [encodeCanonicalLE, encodePtvFile, List.append_assoc]
    rw [hs0, hs8]
  have hfinal : decodeHeaderLe (leBytes 8 PADDING_SIZE, leBytes 8 vals.length) =
      { ranges_start := PADDING_SIZE, points_count := vals.length } := by
    unfold decodeHeaderLe
    rw [leVal_leBytes8 hp64, leVal_leBytes8 hn64]
  have hmig := migrate_encodeLegacyBE vals (by rw [h2pn4]; omega)
  simp only [openPointToValues, hread]
  rw [if_neg (by
    show ¬(decodeHeaderLe (beBytes 8 PADDING_SIZE, beBytes 8 vals.length)).ranges_start
      = PADDING_SIZE
    show ¬leVal (beBytes 8 PADDING_SIZE) = PADDING_SIZE
    decide)]
  rw [hbe]
  rw [if_neg (by simp)]
  rw [hmig]
  simp only [hreadL, hfinal]
  simp

theorem get_values_encodeLE (vals : List (List Int)) (pid : Nat)
    (hpid : pid < vals.length)
    (hsz : valuesStart vals.length + 8 * totalLen vals < 2 ^ 64)
    (hb : ∀ vs ∈ vals, ∀ v ∈ vs, -(2 ^ 63) ≤ v ∧ v < 2 ^ 63) :
    get_values_int
      { file := encodeCanonicalLE vals,
        header := { ranges_start := PADDING_SIZE, points_count := vals.length } } pid =
      some (vals.getD pid []) := by
  have hpad : PADDING_SIZE = 4096 := rfl
  have hvst : valuesStart vals.length = PADDING_SIZE + 16 * vals.length := rfl
  have hlenL := length_encodePtvFile_le vals
  have h2pn4 : (2 : Nat) ^ 64 = 18446744073709551616 := by norm_num
  rw [h2pn4] at hsz
  have hdecomp : vals = vals.take pid ++ vals.getD pid [] :: vals.drop (pid + 1) := by
    rw [List.getD_eq_getElem _ _ hpid]
    conv_lhs => rw [← List.take_append_drop pid vals]
    rw [List.drop_eq_getElem_cons hpid]
  have htots : totalLen vals = totalLen (vals.take pid) +
      ((vals.getD pid []).length + totalLen (vals.drop (pid + 1))) := by
    conv_lhs => rw [hdecomp]
    rw [totalLen_append, totalLen_cons]
  -- decompose the file around the range table
  set pre0 := leBytes 8 PADDING_SIZE ++ (leBytes 8 vals.length ++ zeros (PADDING_SIZE - 16))
    with hpre0
  have hpre0len : pre0.length = PADDING_SIZE := by
    rw [hpre0]
    simp [length_leBytes8, length_zeros]
    omega
  have hfile : encodeCanonicalLE vals = pre0 ++
      (rangeBytes leBytes (rangesFrom (valuesStart vals.length) vals) ++
        valueBytes leBytes vals) := by
    rw [hpre0]
    simp [encodeCanonicalLE, encodePtvFile, List.append_assoc]
  have hrr := rangeRecord_slice vals pid pre0
    (valueBytes leBytes vals) (valuesStart vals.length) hpid
  rw [hpre0len] at hrr
  have hstart64 : valuesStart vals.length + 8 * totalLen (vals.take pid) < 2 ^ 64 := by
    rw [h2pn4]
    omega
  have hcount64 : (vals.getD pid []).length < 2 ^ 64 := by
    rw [h2pn4]
    omega
  unfold get_values_int get_range
  rw [if_pos (by exact hpid)]
  simp only
  rw [if_pos (by rw [hlenL]; omega)]
  have hsl1 : slice (encodeCanonicalLE vals) (PADDING_SIZE + pid * 16) 8 =
      leBytes 8 (valuesStart vals.length + 8 * totalLen (vals.take pid)) := by
    rw [hfile, show PADDING_SIZE + pid * 16 = PADDING_SIZE + 16 * pid by ring]
    exact hrr.1
  have hsl2 : slice (encodeCanonicalLE vals) (PADDING_SIZE + pid * 16 + 8) 8 =
      leBytes 8 (vals.getD pid []).length := by
    rw [hfile, show PADDING_SIZE + pid * 16 + 8 = PADDING_SIZE + 16 * pid + 8 by ring]
    exact hrr.2
  rw [hsl1, hsl2, leVal_leBytes8 hstart64, leVal_leBytes8 hcount64]
  show some (collectIntValues (encodeCanonicalLE vals)
      (valuesStart vals.length + 8 * totalLen (vals.take pid))
      (vals.getD pid []).length) = some (vals.getD pid [])
  congr 1
  -- the value region of point `pid`
  have hmem : vals.getD pid [] ∈ vals := by
    rw [List.getD_eq_getElem _ _ hpid]
    exact List.getElem_mem hpid
  have hbmid : ∀ v ∈ vals.getD pid [], -(2 ^ 63) ≤ v ∧ v < 2 ^ 63 :=
    fun v hv => hb _ hmem v hv
  set pre1 := pre0 ++
    (rangeBytes leBytes (rangesFrom (valuesStart vals.length) vals) ++
      valueBytes leBytes (vals.take pid)) with hpre1
  have hpre1len : pre1.length =
      valuesStart vals.length + 8 * totalLen (vals.take pid) := by
    rw [hpre1]
    simp only [List.length_append, hpre0len,
      length_rangeBytes (fun v => length_leBytes8 v), length_rangesFrom,
      length_valueBytes (fun v => length_leBytes8 v)]
    omega
  have hfile2 : encodeCanonicalLE vals = pre1 ++
      (valSeg leBytes (vals.getD pid []) ++
        valueBytes leBytes (vals.drop (pid + 1))) := by
    rw [hpre1, hfile]
    have hvb : valueBytes leBytes vals =
        valueBytes leBytes (vals.take pid) ++
          (valSeg leBytes (vals.getD pid []) ++
            valueBytes leBytes (vals.drop (pid + 1))) := by
      conv_lhs => rw [hdecomp]
      simp [valueBytes, List.append_assoc]
    rw [hvb]
    simp [List.append_assoc]
  rw [hfile2, ← hpre1len]
  exact collect_valSeg (vals.getD pid []) pre1 _ hbmid

/-- C1. For every well-formed legacy big-endian `PointToValuesStore` file with
integer values (whose 16-byte header decodes as big-endian with
`ranges_start = 4096`), `open` migrates the file in place — byte-swapping the
two header fields, each `(start, count)` range record and every 8-byte value
via the `i64` `swap_legacy_be_value_in_place` helper — after which the file
equals the canonical little-endian encoding, bytes `[0..8)` equal
`(4096 : u64).to_le_bytes()`, and `get_values` returns exactly the value
sequences the legacy file encoded; and any file whose header decodes as
neither LE-4096 nor BE-4096 is rejected with an error. -/
theorem point_to_values_legacy_be_migration
    (vals : List (List Int))
    (hb : ∀ vs ∈ vals, ∀ v ∈ vs, -(2 ^ 63) ≤ v ∧ v < 2 ^ 63)
    (hsz : valuesStart vals.length + 8 * totalLen vals < 2 ^ 64) :
    (∃ st, openPointToValues (encodeLegacyBE vals) = .ok st ∧
      st.file = encodeCanonicalLE vals ∧
      slice st.file 0 8 = leBytes 8 PADDING_SIZE ∧
      ∀ pid, pid < vals.length → get_values_int st pid = some (vals.getD pid [])) ∧
    (∀ f, 16 ≤ f.length →
      leVal (slice f 0 8) ≠ PADDING_SIZE → beVal (slice f 0 8) ≠ PADDING_SIZE →
      openPointToValues f = .error .inconsistentStorage) := by
  constructor
  · refine ⟨_, open_encodeLegacyBE vals hsz, rfl, ?_, ?_⟩
    · show slice (encodeCanonicalLE vals) 0 8 = leBytes 8 PADDING_SIZE
      refine slice_of_decomp [] (leBytes 8 PADDING_SIZE)
        (leBytes 8 vals.length ++ (zeros (PADDING_SIZE - 16) ++
          (rangeBytes leBytes (rangesFrom (valuesStart vals.length) vals) ++
            valueBytes leBytes vals))) ?_ rfl (length_leBytes8 _)
      simp [encodeCanonicalLE, encodePtvFile, List.append_assoc]
    · intro pid hpid
      exact get_values_encodeLE vals pid hpid hsz hb
  · intro f hf hne1 hne2
    unfold openPointToValues read_header_disk
    rw [if_pos hf]
    simp only
    rw [if_neg (by exact hne1), if_pos (by exact hne2)]

/-- Witness for `point_to_values_legacy_be_migration` at the legacy file
encoding `{0 ↦ [11, 22], 1 ↦ [33]}`. -/
theorem point_to_values_legacy_be_migration_witness :
    (∃ st, openPointToValues (encodeLegacyBE [[11, 22], [33]]) = .ok st ∧
      st.file = encodeCanonicalLE [[11, 22], [33]] ∧
      slice st.file 0 8 = leBytes 8 PADDING_SIZE ∧
      ∀ pid, pid < ([[11, 22], [33]] : List (List Int)).length →
        get_values_int st pid = some (([[11, 22], [33]] : List (List Int)).getD pid [])) ∧
    (∀ f, 16 ≤ f.length →
      leVal (slice f 0 8) ≠ PADDING_SIZE → beVal (slice f 0 8) ≠ PADDING_SIZE →
      openPointToValues f = .error .inconsistentStorage) :=
  point_to_values_legacy_be_migration [[11, 22], [33]] (by decide)
    (by norm_num [valuesStart, totalLen, PADDING_SIZE])

end QdrantS390x
